import Mathlib

/-!
Verification development for an offline documentation indexer and query
engine.  The definitions below are shallow embeddings of the TypeScript
sources (`src/indexer/parse-solidity.ts`, `src/indexer/parse-mdx.ts`,
`src/db/queries.ts`): pure functions over lists and strings, with external
collaborators (the Solidity parser, the remark markdown parser, the FTS
engine) modelled as explicit parameters or small explicit models.

All string manipulation is implemented over `List Char` with structural
recursion so that every definition evaluates by kernel reduction
(`decide` / `rfl`), mirroring the JavaScript string primitives used by the
sources (`trim`, `slice`, `split`, `startsWith`, `includes`, truthiness of
strings, ...).
-/

namespace JsStr

/-- Whitespace test mirroring the characters JavaScript `trim` and `\s`
treat as whitespace (restricted to the ASCII ones that occur in the
sources' inputs). -/
def isWs (c : Char) : Bool :=
  c = ' ' ∨ c = '\t' ∨ c = '\n' ∨ c = '\r'

/-- Drop leading whitespace of a character list. -/
def trimLeftL (l : List Char) : List Char := l.dropWhile isWs

/-- JavaScript `String.prototype.trim` on a character list. -/
def trimL (l : List Char) : List Char :=
  (trimLeftL ((trimLeftL l.reverse)).reverse)

/-- JavaScript `s.trim()`. -/
def trim (s : String) : String := ⟨trimL s.data⟩

/-- JavaScript `s.startsWith(p)`. -/
def startsWith (s p : String) : Bool := p.data.isPrefixOf s.data

/-- JavaScript `s.endsWith(p)`. -/
def endsWith (s p : String) : Bool := p.data.isSuffixOf s.data

/-- JavaScript `s.slice(n)` for a non-negative `n`. -/
def sliceFrom (s : String) (n : Nat) : String := ⟨s.data.drop n⟩

/-- JavaScript `s.slice(0, -n)` for a positive `n`. -/
def dropRight (s : String) (n : Nat) : String := ⟨s.data.take (s.data.length - n)⟩

/-- Split a character list on every occurrence of the (non-empty) separator
list, keeping empty pieces, as JavaScript `split` with a string separator
does.  `acc` accumulates the current piece in reverse; the recursion is
structural on `fuel`, which is a bound on the number of characters left. -/
def splitOnL (sep : List Char) : Nat → List Char → List Char → List (List Char)
  | _, [], acc => [acc.reverse]
  | 0, l, acc => [acc.reverse ++ l]
  | fuel + 1, c :: rest, acc =>
    if sep.isPrefixOf (c :: rest) then
      acc.reverse :: splitOnL sep fuel (List.drop (sep.length - 1) rest) []
    else
      splitOnL sep fuel rest (c :: acc)

/-- JavaScript `s.split(sep)` for a non-empty string separator. -/
def splitOn (s sep : String) : List String :=
  (splitOnL sep.data s.data.length s.data []).map fun l => ⟨l⟩

/-- Split a character list at every character satisfying `p`, keeping empty
pieces, as JavaScript `split` with a single-character-class regex does. -/
def splitPredL (p : Char → Bool) : List Char → List Char → List (List Char)
  | [], acc => [acc.reverse]
  | c :: rest, acc =>
    if p c then acc.reverse :: splitPredL p rest []
    else splitPredL p rest (c :: acc)

/-- JavaScript `s.split(regex)` for a character-class regex. -/
def splitPred (s : String) (p : Char → Bool) : List String :=
  (splitPredL p s.data []).map fun l => ⟨l⟩

/-- JavaScript `s.includes(sub)` for a non-empty `sub`: the separator-split
has more than one piece exactly when the substring occurs. -/
def includes (s sub : String) : Bool := (splitOn s sub).length != 1

/-- JavaScript string truthiness: every string except `""` is truthy. -/
def truthy (s : String) : Bool := s ≠ ""

/-- Truthiness of a possibly-absent string (`undefined`/`null` and `""` are
falsy). -/
def truthyO : Option String → Bool
  | none => false
  | some s => truthy s

/-- JavaScript `a || b` on possibly-absent strings. -/
def orO (a b : Option String) : Option String :=
  if truthyO a then a else b

/-- JavaScript `a || b` where `b` is a present string. -/
def orS (a : Option String) (b : String) : String :=
  match a with
  | none => b
  | some s => if truthy s then s else b

/-- Lower-case an ASCII letter, the identity elsewhere (the behaviour of
SQLite `LOWER` and, on the ASCII inputs of this system, of JavaScript
`toLowerCase`). -/
def lowerChar (c : Char) : Char :=
  if 'A' ≤ c ∧ c ≤ 'Z' then Char.ofNat (c.toNat + 32) else c

/-- Upper-case an ASCII letter, the identity elsewhere. -/
def upperChar (c : Char) : Char :=
  if 'a' ≤ c ∧ c ≤ 'z' then Char.ofNat (c.toNat - 32) else c

/-- ASCII lower-casing of a string. -/
def lower (s : String) : String := ⟨s.data.map lowerChar⟩

/-- ASCII upper-casing of a string. -/
def upper (s : String) : String := ⟨s.data.map upperChar⟩

/-- Decimal digits of a natural number, most significant first; `fuel`
bounds the recursion and is always sufficient when `fuel > n`. -/
def natDigits : Nat → Nat → List Char
  | 0, _ => []
  | fuel + 1, n =>
    if n < 10 then [Char.ofNat (48 + n)]
    else natDigits fuel (n / 10) ++ [Char.ofNat (48 + n % 10)]

/-- Decimal rendering of a natural number (JavaScript number-to-string for
the non-negative integers used as positional keys). -/
def natStr (n : Nat) : String := ⟨natDigits (n + 1) n⟩

/-- Word character test for the `\w` regex class. -/
def isWordChar (c : Char) : Bool :=
  ('a' ≤ c ∧ c ≤ 'z') ∨ ('A' ≤ c ∧ c ≤ 'Z') ∨ ('0' ≤ c ∧ c ≤ '9') ∨ c = '_'

end JsStr

namespace JsObj

/-- Association-list operations modelling a JavaScript plain object used as
a string-keyed map: `aGet` is property lookup. -/
def aGet : List (String × String) → String → Option String
  | [], _ => none
  | (k, v) :: rest, key => if k = key then some v else aGet rest key

/-- Property assignment `obj[key] = value`: replaces the value in place when
the key exists (keeping its insertion position), otherwise appends. -/
def aSet : List (String × String) → String → String → List (String × String)
  | [], key, value => [(key, value)]
  | (k, v) :: rest, key, value =>
    if k = key then (k, value) :: rest else (k, v) :: aSet rest key value

/-- `Object.assign(base, upd)`: copy every property of `upd` into `base`. -/
def aMergeInto (base upd : List (String × String)) : List (String × String) :=
  upd.foldl (fun b kv => aSet b kv.1 kv.2) base

end JsObj

namespace Solidity

open JsStr JsObj

/-- The intermediate `NatSpecComment` record built by the Extractor
(`parse-solidity.ts`, interface `NatSpecComment`). -/
structure NatSpecComment where
  notice : Option String := none
  dev : Option String := none
  params : List (String × String) := []
  returns : List (String × String) := []
  inheritdoc : Option String := none
deriving DecidableEq, Repr

/-- Regex search: try an anchored matcher at every suffix of the input,
returning the first (leftmost) success, as JavaScript `String.match` does
for an unanchored pattern. -/
def searchMatch {α : Type} (f : List Char → Option α) : List Char → Option α
  | [] => f []
  | l@(_ :: rest) =>
    match f l with
    | some r => some r
    | none => searchMatch f rest

/-- Anchored matcher for `/@param\s+(\w+)\s+(.*)/`: the literal tag, at
least one whitespace, a maximal non-empty word-character run (the name), at
least one whitespace, and the rest of the line (the text).  Greedy
backtracking can never split a word run at a whitespace, so this
deterministic reading is equivalent to the regex. -/
def matchParamAt (l : List Char) : Option (String × String) :=
  if ("@param".data).isPrefixOf l then
    let r0 := l.drop 6
    let ws1 := r0.takeWhile isWs
    if ws1.isEmpty then none else
      let r1 := r0.drop ws1.length
      let name := r1.takeWhile isWordChar
      if name.isEmpty then none else
        let r2 := r1.drop name.length
        let ws2 := r2.takeWhile isWs
        if ws2.isEmpty then none else
          some (⟨name⟩, ⟨r2.drop ws2.length⟩)
  else none

/-- Anchored matcher for `/@return\s+(\w+)?\s*(.*)/`: the literal tag, at
least one whitespace, an optional word-character run (the name; an empty
run leaves the group unmatched), any further whitespace, and the rest of
the line. -/
def matchReturnAt (l : List Char) : Option (Option String × String) :=
  if ("@return".data).isPrefixOf l then
    let r0 := l.drop 7
    let ws1 := r0.takeWhile isWs
    if ws1.isEmpty then none else
      let r1 := r0.drop ws1.length
      let name := r1.takeWhile isWordChar
      let r2 := r1.drop name.length
      let ws2 := r2.takeWhile isWs
      some (if name.isEmpty then none else some ⟨name⟩, ⟨r2.drop ws2.length⟩)
  else none

/-- Loop state of `parseNatSpecContent`: the record under construction, the
active tag (`""` when none), and the active accumulator text. -/
structure TagState where
  ns : NatSpecComment
  tag : String
  content : String
deriving DecidableEq, Repr

/-- One iteration of the `for (const line of lines)` loop of
`parseNatSpecContent`. -/
def natSpecStep (st : TagState) (line : String) : TagState :=
  if startsWith line "@notice" then
    let ns := if st.tag = "notice"
      then { st.ns with notice := some (orS st.ns.notice "" ++ " " ++ st.content) }
      else st.ns
    { ns := ns, tag := "notice", content := trim (sliceFrom line 7) }
  else if startsWith line "@dev" then
    let ns := if st.tag = "dev"
      then { st.ns with dev := some (orS st.ns.dev "" ++ " " ++ st.content) }
      else st.ns
    { ns := ns, tag := "dev", content := trim (sliceFrom line 4) }
  else if startsWith line "@param" then
    let ns := match searchMatch matchParamAt line.data with
      | some (name, text) => { st.ns with params := aSet st.ns.params name text }
      | none => st.ns
    { ns := ns, tag := "param", content := "" }
  else if startsWith line "@return" then
    let ns := match searchMatch matchReturnAt line.data with
      | some (name?, text) =>
        let key := orS name? (natStr st.ns.returns.length)
        { st.ns with returns := aSet st.ns.returns key text }
      | none => st.ns
    { ns := ns, tag := "return", content := "" }
  else if startsWith line "@inheritdoc" then
    { ns := { st.ns with inheritdoc := some (trim (sliceFrom line 11)) },
      tag := "inheritdoc", content := "" }
  else if startsWith line "@" then
    { st with tag := "", content := "" }
  else if truthy st.tag then
    { st with content := st.content ++ " " ++ line }
  else st

/-- `parseNatSpecContent` (parse-solidity.ts): split the comment text into
trimmed non-empty lines, run the tag accumulator loop, flush a trailing
notice/dev accumulator, trim the collected texts, and return `none` when no
tag produced anything (JavaScript truthiness throughout). -/
def parseNatSpecContent (content : String) : Option NatSpecComment :=
  let lines := ((splitOn content "\n").map trim).filter truthy
  let st := lines.foldl natSpecStep ⟨{}, "", ""⟩
  let ns := st.ns
  let ns :=
    if st.tag = "notice" ∧ truthy st.content then
      { ns with notice := some (orS ns.notice "" ++ " " ++ st.content) }
    else if st.tag = "dev" ∧ truthy st.content then
      { ns with dev := some (orS ns.dev "" ++ " " ++ st.content) }
    else ns
  let ns := { ns with notice := ns.notice.map trim, dev := ns.dev.map trim }
  if ns.params.length > 0 ∨ ns.returns.length > 0 ∨ truthyO ns.notice ∨
      truthyO ns.dev ∨ truthyO ns.inheritdoc then
    some ns
  else none

/-- Map from a 1-indexed line number to the comment block recorded for it,
with JavaScript `Map` set/get semantics (`aSetN`/`aGetN` below). -/
abbrev NatSpecMap := List (Nat × NatSpecComment)

/-- `Map.prototype.get`. -/
def aGetN : NatSpecMap → Nat → Option NatSpecComment
  | [], _ => none
  | (k, v) :: rest, key => if k = key then some v else aGetN rest key

/-- `Map.prototype.set`: replace in place or append. -/
def aSetN : NatSpecMap → Nat → NatSpecComment → NatSpecMap
  | [], key, value => [(key, value)]
  | (k, v) :: rest, key, value =>
    if k = key then (k, value) :: rest else (k, v) :: aSetN rest key value

/-- Loop state of `extractNatSpecComments`: whether a `/**` block is open,
the collected interior lines of the open block, the 1-indexed line on which
the previous comment ended (`-1` initially, as in the source), and the map
built so far. -/
structure ExtractState where
  inBlockComment : Bool := false
  currentComment : List String := []
  commentEndLine : Int := -1
  map : NatSpecMap := []
deriving Repr

/-- Index (0-based) of the first line at or after position `base` whose
trimmed text is non-empty — the `for (let j = i + 1; ...)` scan of
`extractNatSpecComments`. -/
def firstNonBlankIdx : List String → Nat → Option Nat
  | [], _ => none
  | line :: rest, base =>
    if JsStr.truthy (JsStr.trim line) then some base
    else firstNonBlankIdx rest (base + 1)

/-- Strip one leading `*` (then re-trim) from a block-comment interior
line, as `extractNatSpecComments` does. -/
def stripStar (t : String) : String :=
  if JsStr.startsWith t "*" then JsStr.trim (JsStr.sliceFrom t 1) else t

/-- The in-place merge of a continued `///` run in `extractNatSpecComments`:
truthy notice/dev texts are appended with a space, params/returns are
`Object.assign`-merged, and the stored `inheritdoc` is kept. -/
def mergeNatSpec (prev ns : NatSpecComment) : NatSpecComment :=
  { notice := if JsStr.truthyO ns.notice
      then some (JsStr.orS prev.notice "" ++ " " ++ ns.notice.getD "")
      else prev.notice
    dev := if JsStr.truthyO ns.dev
      then some (JsStr.orS prev.dev "" ++ " " ++ ns.dev.getD "")
      else prev.dev
    params := aMergeInto prev.params ns.params
    returns := aMergeInto prev.returns ns.returns
    inheritdoc := prev.inheritdoc }

/-- The `for (let i = 0; ...)` body of `extractNatSpecComments`, processing
the line at 0-based index `i`; `rest` is the remainder of the file after
that line (needed for the forward scan to the next non-blank line). -/
def extractStep (st : ExtractState) (line : String) (i : Nat) (rest : List String) :
    ExtractState :=
  if JsStr.startsWith (JsStr.trim line) "/**" then
    { st with
      inBlockComment := true,
      currentComment := [JsStr.sliceFrom (JsStr.trim line) 3] }
  else if st.inBlockComment then
    if JsStr.endsWith (JsStr.trim line) "*/" then
      { inBlockComment := false,
        currentComment := [],
        commentEndLine := (i : Int) + 1,
        map :=
          match parseNatSpecContent (String.intercalate "\n"
              (st.currentComment ++ [JsStr.dropRight (JsStr.trim line) 2])) with
          | some ns =>
            match firstNonBlankIdx rest (i + 1) with
            | some j => aSetN st.map (j + 1) ns
            | none => st.map
          | none => st.map }
    else
      { st with currentComment := st.currentComment ++ [stripStar (JsStr.trim line)] }
  else if JsStr.startsWith (JsStr.trim line) "///" then
    { st with
      commentEndLine := (i : Int) + 1,
      map :=
        if st.commentEndLine = (i : Int) then
          match aGetN st.map (i + 1) with
          | some prev =>
            match parseNatSpecContent (JsStr.trim (JsStr.sliceFrom (JsStr.trim line) 3)) with
            | some ns => aSetN st.map (i + 1) (mergeNatSpec prev ns)
            | none => st.map
          | none => st.map
        else
          match parseNatSpecContent (JsStr.trim (JsStr.sliceFrom (JsStr.trim line) 3)) with
          | some ns => aSetN st.map (i + 2) ns
          | none => st.map }
  else st

/-- Tail of the extraction loop from 0-based index `i` over the remaining
lines. -/
def extractGo : List String → Nat → ExtractState → ExtractState
  | [], _, st => st
  | line :: rest, i, st => extractGo rest (i + 1) (extractStep st line i rest)

/-- `extractNatSpecComments` (parse-solidity.ts): scan the source text line
by line, collecting `/** ... */` blocks and `///` comments, and key each
parsed block by the 1-indexed line it is attributed to. -/
def extractNatSpecComments (source : String) : NatSpecMap :=
  (extractGo (JsStr.splitOn source "\n") 0 {}).map

/-- `findNatSpecBefore` (parse-solidity.ts): the comment for a declaration
starting at 1-indexed `line` is `map[line]`, else `map[line - 1]`, else
none. -/
def findNatSpecBefore (line : Nat) (natspecMap : NatSpecMap) : Option NatSpecComment :=
  match aGetN natspecMap line with
  | some ns => some ns
  | none => aGetN natspecMap (line - 1)

/-- Rendered-type AST as produced by the external Solidity parser, reduced
to the fields `typeNameToString` consumes.  The `length` of an array type
is kept as the text the source's template literal would render for the
length expression node. -/
inductive TypeName where
  | elementary (name : String)
  | userDefined (namePath : String)
  | array (baseTypeName : TypeName) (length : Option String)
  | mapping (keyType valueType : TypeName)
  | functionTypeName
deriving DecidableEq, Repr

/-- Recursive body of `typeNameToString` on a present type node. -/
def typeNameToStringCore : TypeName → String
  | .elementary name => name
  | .userDefined namePath => namePath
  | .array base len =>
    typeNameToStringCore base ++ (match len with
      | some l => "[" ++ l ++ "]"
      | none => "[]")
  | .mapping k v =>
    "mapping(" ++ typeNameToStringCore k ++ " => " ++ typeNameToStringCore v ++ ")"
  | .functionTypeName => "function"

/-- `typeNameToString` (parse-solidity.ts): a missing type renders as `""`. -/
def typeNameToString : Option TypeName → String
  | none => ""
  | some t => typeNameToStringCore t

/-- A parameter or return-value declaration node (`VariableDeclaration` of
the external parser): a possibly-absent name and a possibly-absent type. -/
structure ASTParam where
  name : Option String := none
  typeName : Option TypeName := none
deriving DecidableEq, Repr

/-- A `FunctionDefinition` node of the external parser, reduced to the
fields the walker reads. -/
structure FunctionNode where
  name : Option String := none
  isConstructor : Bool := false
  isFallback : Bool := false
  isReceiveEther : Bool := false
  parameters : List ASTParam := []
  returnParameters : List ASTParam := []
  visibility : Option String := none
  stateMutability : Option String := none
  locLine : Option Nat := none
deriving DecidableEq, Repr

/-- An event/error/modifier definition node of the external parser. -/
structure SimpleMemberNode where
  name : Option String := none
  parameters : List ASTParam := []
  locLine : Option Nat := none
deriving DecidableEq, Repr

/-- A member of a contract body (`node.subNodes` entries the walker
handles; every other sub-node kind is ignored by the walker and is not
modelled). -/
inductive SubNode where
  | functionDefinition (node : FunctionNode)
  | eventDefinition (node : SimpleMemberNode)
  | errorDefinition (node : SimpleMemberNode)
  | modifierDefinition (node : SimpleMemberNode)
deriving DecidableEq, Repr

/-- A base-contract reference in a declaration header: either a
user-defined type name or some other reference kind. -/
inductive BaseContract where
  | userDefinedTypeName (namePath : String)
  | otherBaseName
deriving DecidableEq, Repr

/-- A `ContractDefinition` node of the external parser. -/
structure ContractNode where
  name : String
  kind : String
  baseContracts : List BaseContract := []
  subNodes : List SubNode := []
  locLine : Option Nat := none
deriving DecidableEq, Repr

/-- `ParamInfo` (types.ts). -/
structure ParamInfo where
  name : String
  type : String
  description : Option String := none
deriving DecidableEq, Repr

/-- `ReturnInfo` (types.ts). -/
structure ReturnInfo where
  name : Option String := none
  type : String
  description : Option String := none
deriving DecidableEq, Repr

/-- `FunctionInfo` (types.ts). -/
structure FunctionInfo where
  name : String
  signature : String
  visibility : String
  mutability : String
  params : List ParamInfo
  returns : List ReturnInfo
  natspecNotice : Option String := none
  natspecDev : Option String := none
  exampleCode : Option String := none
deriving DecidableEq, Repr

/-- `EventInfo`/`ErrorInfo`/`ModifierInfo` (types.ts) share this shape. -/
structure SimpleMemberInfo where
  name : String
  signature : String
  params : List ParamInfo
  natspecNotice : Option String := none
  natspecDev : Option String := none
deriving DecidableEq, Repr

/-- `ContractInfo` (types.ts). -/
structure ContractInfo where
  name : String
  type : String
  category : String
  version : String
  inheritance : List String
  natspecNotice : Option String := none
  sourceUrl : String
  functions : List FunctionInfo := []
  events : List SimpleMemberInfo := []
  errors : List SimpleMemberInfo := []
  modifiers : List SimpleMemberInfo := []
deriving DecidableEq, Repr

/-- Description lookup for the return value at 0-based index `idx` with
declared name `name`, as inlined in `parseFunctionDefinition`:
`natspec?.returns[param.name || `_idx`] || natspec?.returns[String(idx)]`. -/
def returnDescription (natspec : Option NatSpecComment) (name : Option String)
    (idx : Nat) : Option String :=
  JsStr.orO
    (natspec.bind fun ns => aGet ns.returns (JsStr.orS name ("_" ++ JsStr.natStr idx)))
    (natspec.bind fun ns => aGet ns.returns (JsStr.natStr idx))

/-- Indexed map used for `returnParameters.map((param, idx) => ...)`. -/
def mapWithIndex {α β : Type} (f : Nat → α → β) : Nat → List α → List β
  | _, [] => []
  | i, a :: rest => f i a :: mapWithIndex f (i + 1) rest

/-- `buildFunctionSignature` (parse-solidity.ts). -/
def buildFunctionSignature (name : String) (params : List ParamInfo)
    (returns : List ReturnInfo) (node : FunctionNode) : String :=
  let paramsStr := String.intercalate ", "
    (params.map fun p => p.type ++ (if JsStr.truthy p.name then " " ++ p.name else ""))
  let visibility := JsStr.orS node.visibility "public"
  let mutability := match node.stateMutability with
    | some m => if JsStr.truthy m then " " ++ m else ""
    | none => ""
  let sig := "function " ++ name ++ "(" ++ paramsStr ++ ")" ++ " " ++ visibility ++ mutability
  if returns.length > 0 then
    sig ++ " returns (" ++ String.intercalate ", " (returns.map (·.type)) ++ ")"
  else sig

/-- Name resolution of `parseFunctionDefinition`:
`node.name || (isConstructor ? 'constructor' : isFallback ? 'fallback' :
isReceiveEther ? 'receive' : '')`. -/
def functionNameOf (node : FunctionNode) : String :=
  JsStr.orS node.name
    (if node.isConstructor then "constructor"
     else if node.isFallback then "fallback"
     else if node.isReceiveEther then "receive" else "")

/-- `parseFunctionDefinition` (parse-solidity.ts). -/
def parseFunctionDefinition (node : FunctionNode) (natspec : Option NatSpecComment) :
    Option FunctionInfo :=
  let name := functionNameOf node
  if ¬ JsStr.truthy name then none
  else
    let params : List ParamInfo := node.parameters.map fun param =>
      { name := param.name.getD ""
        type := typeNameToString param.typeName
        description := natspec.bind fun ns => aGet ns.params (param.name.getD "") }
    let returns : List ReturnInfo := mapWithIndex (fun idx param =>
      { name := if JsStr.truthyO param.name then param.name else none
        type := typeNameToString param.typeName
        description := returnDescription natspec param.name idx }) 0 node.returnParameters
    some
      { name := name
        signature := buildFunctionSignature name params returns node
        visibility := JsStr.orS node.visibility "public"
        mutability := JsStr.orS node.stateMutability ""
        params := params
        returns := returns
        natspecNotice := natspec.bind (·.notice)
        natspecDev := natspec.bind (·.dev) }

/-- Shared parameter rendering of `parseEventDefinition`,
`parseErrorDefinition` and `parseModifierDefinition`. -/
def simpleParams (node : SimpleMemberNode) (natspec : Option NatSpecComment) :
    List ParamInfo :=
  node.parameters.map fun param =>
    { name := param.name.getD ""
      type := typeNameToString param.typeName
      description := natspec.bind fun ns => aGet ns.params (param.name.getD "") }

/-- Signature text `<kind> NAME(T1 N1, ...)` shared by the event, error and
modifier walkers. -/
def simpleSignature (kind name : String) (params : List ParamInfo) : String :=
  kind ++ " " ++ name ++ "(" ++ String.intercalate ", "
    (params.map fun p => p.type ++ (if JsStr.truthy p.name then " " ++ p.name else "")) ++ ")"

/-- `parseEventDefinition` (parse-solidity.ts). -/
def parseEventDefinition (node : SimpleMemberNode) (natspec : Option NatSpecComment) :
    SimpleMemberInfo :=
  let params := simpleParams node natspec
  { name := node.name.getD ""
    signature := simpleSignature "event" (node.name.getD "") params
    params := params
    natspecNotice := natspec.bind (·.notice)
    natspecDev := natspec.bind (·.dev) }

/-- `parseErrorDefinition` (parse-solidity.ts). -/
def parseErrorDefinition (node : SimpleMemberNode) (natspec : Option NatSpecComment) :
    SimpleMemberInfo :=
  let params := simpleParams node natspec
  { name := node.name.getD ""
    signature := simpleSignature "error" (node.name.getD "") params
    params := params
    natspecNotice := natspec.bind (·.notice)
    natspecDev := natspec.bind (·.dev) }

/-- `parseModifierDefinition` (parse-solidity.ts). -/
def parseModifierDefinition (node : SimpleMemberNode) (natspec : Option NatSpecComment) :
    SimpleMemberInfo :=
  let params := simpleParams node natspec
  { name := node.name.getD ""
    signature := simpleSignature "modifier" (node.name.getD "") params
    params := params
    natspecNotice := natspec.bind (·.notice)
    natspecDev := natspec.bind (·.dev) }

/-- `CATEGORY_PATTERNS` (parse-solidity.ts): the insertion-ordered table of
category names and the path substring each `/\/name\//` regex tests for. -/
def CATEGORY_PATTERNS : List (String × String) :=
  [("access", "/access/"), ("token", "/token/"), ("utils", "/utils/"),
   ("governance", "/governance/"), ("proxy", "/proxy/"), ("finance", "/finance/"),
   ("metatx", "/metatx/"), ("interfaces", "/interfaces/"),
   ("crosschain", "/crosschain/"), ("mocks", "/mocks/"), ("vendor", "/vendor/")]

/-- `detectCategory` (parse-solidity.ts): first matching pattern wins,
default `"general"`. -/
def detectCategory (filePath : String) : String :=
  match CATEGORY_PATTERNS.find? (fun p => JsStr.includes filePath p.2) with
  | some p => p.1
  | none => "general"

/-- `getContractType` (parse-solidity.ts). -/
def getContractType (node : ContractNode) : String :=
  if node.kind = "library" then "library"
  else if node.kind = "interface" then "interface"
  else if node.kind = "abstract" then "abstract"
  else "contract"

/-- Decimal-digit test for the `\d` regex class. -/
def isDigit (c : Char) : Bool := '0' ≤ c ∧ c ≤ '9'

/-- Anchored matcher for `/contracts-v\d+\/(contracts\/.+\.sol)$/` at one
position: the literal `contracts-v`, at least one digit, a slash, and a
capture that starts with `contracts/`, ends with `.sol` at the end of the
string, and has at least one character between. -/
def matchGitHubAt (l : List Char) : Option String :=
  if ("contracts-v".data).isPrefixOf l then
    let r0 := l.drop 11
    let digits := r0.takeWhile isDigit
    if digits.isEmpty then none else
      let r1 := r0.drop digits.length
      match r1 with
      | '/' :: capture =>
        if ("contracts/".data).isPrefixOf capture ∧
            JsStr.endsWith ⟨capture⟩ ".sol" ∧
            capture.length ≥ "contracts/".length + 1 + ".sol".length then
          some ⟨capture⟩
        else none
      | _ => none
  else none

/-- `buildGitHubUrl` (parse-solidity.ts). -/
def buildGitHubUrl (filePath : String) (version : String) : String :=
  match searchMatch matchGitHubAt filePath.data with
  | some capture =>
    let tag := if version = "5.x" then "v5.3.0" else "v4.9.6"
    "https://github.com/OpenZeppelin/openzeppelin-contracts/blob/" ++ tag ++ "/" ++ capture
  | none => ""

/-- One step of the member walk of `parseContractDefinition`: dispatch on
the sub-node kind, consult the extractor map for the member's line, and
append the parsed member to the matching list. -/
def memberStep (natspecMap : NatSpecMap) (c : ContractInfo) (sub : SubNode) :
    ContractInfo :=
  match sub with
  | .functionDefinition fn =>
    let memberNatspec := findNatSpecBefore (fn.locLine.getD 0) natspecMap
    match parseFunctionDefinition fn memberNatspec with
    | some info => { c with functions := c.functions ++ [info] }
    | none => c
  | .eventDefinition ev =>
    let memberNatspec := findNatSpecBefore (ev.locLine.getD 0) natspecMap
    { c with events := c.events ++ [parseEventDefinition ev memberNatspec] }
  | .errorDefinition er =>
    let memberNatspec := findNatSpecBefore (er.locLine.getD 0) natspecMap
    { c with errors := c.errors ++ [parseErrorDefinition er memberNatspec] }
  | .modifierDefinition md =>
    let memberNatspec := findNatSpecBefore (md.locLine.getD 0) natspecMap
    { c with modifiers := c.modifiers ++ [parseModifierDefinition md memberNatspec] }

/-- `parseContractDefinition` (parse-solidity.ts): build the `ContractInfo`
for one contract declaration, consulting the extractor map for the contract
line and each member line. -/
def parseContractDefinition (node : ContractNode) (filePath version : String)
    (natspecMap : NatSpecMap) : ContractInfo :=
  let contractNatspec := findNatSpecBefore (node.locLine.getD 0) natspecMap
  let base : ContractInfo :=
    { name := node.name
      type := getContractType node
      category := detectCategory filePath
      version := version
      inheritance := (node.baseContracts.map fun b =>
        match b with
        | .userDefinedTypeName namePath => namePath
        | .otherBaseName => "").filter JsStr.truthy
      natspecNotice := contractNatspec.bind (·.notice)
      sourceUrl := buildGitHubUrl filePath version }
  node.subNodes.foldl (memberStep natspecMap) base

/-- `parseSolidityFile` (parse-solidity.ts), with the external Solidity
parser supplied as an explicit function `parse` from source text to the
contract-definition nodes its AST visit yields (a parse failure yields no
contracts, as the source catches it and returns `[]`). -/
def parseSolidityFile (parse : String → List ContractNode)
    (filePath : String) (version : String) (source : String) : List ContractInfo :=
  let natspecMap := extractNatSpecComments source
  (parse source).map fun node => parseContractDefinition node filePath version natspecMap

/-- `parseSolidityFiles` (parse-solidity.ts): the files of the contracts
tree are supplied as `(path, source)` pairs; paths containing `/mocks/` or
`/test/` are skipped before parsing. -/
def parseSolidityFiles (parse : String → List ContractNode)
    (files : List (String × String)) (version : String) : List ContractInfo :=
  files.foldl (fun acc file =>
    if JsStr.includes file.1 "/mocks/" ∨ JsStr.includes file.1 "/test/" then acc
    else acc ++ parseSolidityFile parse file.1 version file.2) []

end Solidity

namespace Mdx

open JsStr JsObj

/-- The mdast node kinds `parse-mdx.ts` distinguishes: headings, paragraphs
and generic containers carry children; text, fenced code and inline code
are leaves.  Every other container kind the markdown parser can emit
behaves like `container` for the visitors below (it is only traversed). -/
inductive MdNode where
  | heading (depth : Nat) (children : List MdNode)
  | paragraph (children : List MdNode)
  | text (value : String)
  | code (lang : Option String) (value : String)
  | inlineCode (value : String)
  | container (children : List MdNode)

/-- Children list of a node (leaves have none). -/
def MdNode.children : MdNode → List MdNode
  | .heading _ ch => ch
  | .paragraph ch => ch
  | .container ch => ch
  | _ => []

mutual

/-- Preorder traversal of one node, as `unist-util-visit` performs it. -/
def visitTree : MdNode → List MdNode
  | .heading d ch => .heading d ch :: visitForest ch
  | .paragraph ch => .paragraph ch :: visitForest ch
  | .container ch => .container ch :: visitForest ch
  | .text v => [.text v]
  | .code lang v => [.code lang v]
  | .inlineCode v => [.inlineCode v]

/-- Preorder traversal of a node list. -/
def visitForest : List MdNode → List MdNode
  | [] => []
  | n :: rest => visitTree n ++ visitForest rest

end

mutual

/-- `extractNodeText` (parse-mdx.ts): a text node yields its value; any
node with children yields the concatenation of its children's texts; other
leaves yield `""`. -/
def extractNodeText : MdNode → String
  | .text v => v
  | .heading _ ch => extractForestText ch
  | .paragraph ch => extractForestText ch
  | .container ch => extractForestText ch
  | .code _ _ => ""
  | .inlineCode _ => ""

/-- Concatenated `extractNodeText` over a children list. -/
def extractForestText : List MdNode → String
  | [] => ""
  | n :: rest => extractNodeText n ++ extractForestText rest

end

/-- `extractHeadingText` (parse-mdx.ts): concatenate the values of the
`text` descendants of a heading, in preorder. -/
def extractHeadingText (heading : MdNode) : String :=
  (visitTree heading).foldl (fun acc n =>
    match n with
    | .text v => acc ++ v
    | _ => acc) ""

/-- `extractAllText` (parse-mdx.ts): concatenate every text value (followed
by a space) and every fenced-code block (re-serialized with its fence
markers and language tag) in preorder, then trim. -/
def extractAllText (tree : List MdNode) : String :=
  trim ((visitForest tree).foldl (fun acc n =>
    match n with
    | .text v => acc ++ v ++ " "
    | .code lang v => acc ++ "\n```" ++ orS lang "" ++ "\n" ++ v ++ "\n```\n"
    | _ => acc) "")

/-- `ParsedSection` (parse-mdx.ts). -/
structure ParsedSection where
  title : String
  content : String
  level : Nat
  codeExamples : List String
deriving DecidableEq, Repr

/-- Close the current section: push it when its trimmed content is
non-empty, as both flush sites of `extractSections` do. -/
def pushSection (acc : List ParsedSection) : Option ParsedSection → List ParsedSection
  | none => acc
  | some s => if truthy (trim s.content) then acc ++ [s] else acc

/-- The visitor body of `extractSections` (parse-mdx.ts), run over the
preorder node sequence. -/
def sectionsGo : List MdNode → Option ParsedSection → List ParsedSection →
    List ParsedSection
  | [], cur, acc => pushSection acc cur
  | n :: rest, cur, acc =>
    match n with
    | .heading depth ch =>
      if depth = 2 ∨ depth = 3 then
        sectionsGo rest
          (some { title := extractHeadingText (.heading depth ch), content := "",
                  level := depth, codeExamples := [] })
          (pushSection acc cur)
      else sectionsGo rest cur acc
    | .code lang v =>
      match cur with
      | some s =>
        sectionsGo rest
          (some { s with
            codeExamples := s.codeExamples ++ [v]
            content := s.content ++ "\n```" ++ orS lang "" ++ "\n" ++ v ++ "\n```\n" })
          acc
      | none => sectionsGo rest cur acc
    | .paragraph ch =>
      match cur with
      | some s =>
        sectionsGo rest
          (some { s with content := s.content ++ extractNodeText (.paragraph ch) ++ "\n" })
          acc
      | none => sectionsGo rest cur acc
    | .text v =>
      match cur with
      | some s =>
        sectionsGo rest (some { s with content := s.content ++ v ++ "\n" }) acc
      | none => sectionsGo rest cur acc
    | _ => sectionsGo rest cur acc

/-- `extractSections` (parse-mdx.ts). -/
def extractSections (tree : List MdNode) : List ParsedSection :=
  sectionsGo (visitForest tree) none []

/-- `DocChunk` (types.ts), as populated by `parseMdxFile`. -/
structure DocChunk where
  title : String
  content : String
  category : String
  module : String
  version : String
  sourceType : String
  sourceUrl : String
  filePath : String
deriving DecidableEq, Repr

/-- `CATEGORY_PATTERNS` (parse-mdx.ts): each category matches when the path
contains `/name/` or `/api/name/`. -/
def CATEGORY_PATTERNS : List String :=
  ["access", "token", "utils", "governance", "proxy", "finance", "metatx",
   "interfaces", "crosschain"]

/-- `detectCategory` (parse-mdx.ts). -/
def detectCategory (filePath : String) : String :=
  match CATEGORY_PATTERNS.find? (fun name =>
      includes filePath ("/" ++ name ++ "/") ∨
      includes filePath ("/api/" ++ name ++ "/")) with
  | some name => name
  | none => "general"

/-- `detectVersion` (parse-mdx.ts). -/
def detectVersion (filePath : String) : String :=
  if includes filePath "/5.x/" ∨ includes filePath "/v5" ∨
      includes filePath "contracts-v5" then "5.x"
  else if includes filePath "/4.x/" ∨ includes filePath "/v4" ∨
      includes filePath "contracts-v4" then "4.x"
  else "5.x"

/-- `detectSourceType` (parse-mdx.ts). -/
def detectSourceType (filePath : String) : String :=
  if includes filePath "/api/" then "api" else "guide"

/-- Last path segment, modelling Node `path.basename` for the
slash-terminated-free paths this system feeds it. -/
def lastSegment (p : String) : String :=
  ⟨(p.data.reverse.takeWhile (· ≠ '/')).reverse⟩

/-- Extension of a bare filename (as a character list): the suffix from the
last dot, or `""` when there is no dot or the only dot leads the name. -/
def extnameCore (b : List Char) : String :=
  let afterRev := b.reverse.takeWhile (· ≠ '.')
  if afterRev.length = b.length then ""
  else if b.length - afterRev.length - 1 = 0 then ""
  else ⟨b.drop (b.length - afterRev.length - 1)⟩

/-- Node `path.extname`: the extension of the last segment. -/
def extnameOf (p : String) : String :=
  extnameCore (lastSegment p).data

/-- Node `path.basename(p, ext)`: the last segment with a trailing `ext`
stripped when it is a proper suffix. -/
def basenameExt (p ext : String) : String :=
  let b := lastSegment p
  if ext ≠ "" ∧ b ≠ ext ∧ endsWith b ext then dropRight b ext.data.length else b

/-- JavaScript `part.charAt(0).toUpperCase() + part.slice(1)`. -/
def capitalizePart (s : String) : String :=
  match s.data with
  | [] => ""
  | c :: rest => ⟨upperChar c :: rest⟩

/-- Module rule of `detectModule` on the extension-stripped basename: a
name starting (case-sensitively) with `erc` is upper-cased with hyphens
(only) removed; otherwise the name is split on hyphen/underscore, each part
capitalized, and the parts concatenated. -/
def moduleOfBasename (basename : String) : String :=
  if startsWith basename "erc" then
    ⟨(upper basename).data.filter (· ≠ '-')⟩
  else
    String.join ((splitPred basename fun c => c = '-' ∨ c = '_').map capitalizePart)

/-- `detectModule` (parse-mdx.ts): the module rule applied to the filename
without extension. -/
def detectModule (filePath : String) : String :=
  moduleOfBasename (basenameExt filePath (extnameOf filePath))

/-- `buildSourceUrl` (parse-mdx.ts): strip everything through the last
`/content/contracts/`, strip a trailing `.mdx`, and prefix the docs site
root for the version. -/
def buildSourceUrl (filePath version : String) : String :=
  let pieces := splitOn filePath "/content/contracts/"
  let relativePath := pieces.getLastD filePath
  let relativePath :=
    if endsWith relativePath ".mdx" then dropRight relativePath 4 else relativePath
  "https://docs.openzeppelin.com/contracts/" ++ version ++ "/" ++ relativePath

/-- One line of the front-matter block, matched against
`/^(\w+):\s*(.+)$/` and quote-stripped (`replace(/^["']|["']$/g, '')`). -/
def frontmatterLine (line : String) : Option (String × String) :=
  let key := line.data.takeWhile isWordChar
  if key.isEmpty then none
  else
    match line.data.drop key.length with
    | ':' :: afterColon =>
      let ws := afterColon.takeWhile isWs
      let rest := afterColon.drop ws.length
      let value :=
        if rest.isEmpty then
          match ws.getLast? with
          | some c => [c]
          | none => []
        else rest
      if value.isEmpty then none
      else
        let value := if value.head? = some '"' ∨ value.head? = some '\x27' then
          value.drop 1 else value
        let value := if value.getLast? = some '"' ∨ value.getLast? = some '\x27' then
          value.take (value.length - 1) else value
        some (⟨key⟩, ⟨value⟩)
    | _ => none

/-- `extractFrontmatter` (parse-mdx.ts): a leading `---` block is parsed
into key/value pairs and removed from the body. -/
def extractFrontmatter (content : String) :
    List (String × String) × String :=
  if startsWith content "---\n" then
    let rest := sliceFrom content 4
    match splitOn rest "\n---\n" with
    | [] => ([], content)
    | [_] => ([], content)
    | yaml :: bodyPieces =>
      let body := String.intercalate "\n---\n" bodyPieces
      let fm := (splitOn yaml "\n").foldl (fun fm line =>
        match frontmatterLine line with
        | some (k, v) => aSet fm k v
        | none => fm) []
      (fm, body)
  else ([], content)

/-- Chunk construction of `parseMdxFile` (parse-mdx.ts) after front-matter
extraction and markdown parsing: the whole-document fallback when no
section was extracted, otherwise one chunk per non-blank section. -/
def chunksOf (filePath : String) (fm : List (String × String))
    (tree : List MdNode) : List DocChunk :=
  let version := detectVersion filePath
  let category := detectCategory filePath
  let module := detectModule filePath
  let fmTitle := aGet fm "title"
  let sections := extractSections tree
  if sections.isEmpty then
    let allContent := extractAllText tree
    if truthy (trim allContent) then
      [{ title := orS fmTitle module, content := allContent, category := category,
         module := module, version := version, sourceType := detectSourceType filePath,
         sourceUrl := buildSourceUrl filePath version, filePath := filePath }]
    else []
  else
    sections.foldl (fun chunks s =>
      if truthy (trim s.content) then
        chunks ++ [{ title := if truthy s.title then s.title else orS fmTitle module,
                     content := s.content, category := category, module := module,
                     version := version, sourceType := detectSourceType filePath,
                     sourceUrl := buildSourceUrl filePath version, filePath := filePath }]
      else chunks) []

/-- `parseMdxFile` (parse-mdx.ts), with the external markdown parser
supplied as an explicit function from the body text to its node forest. -/
def parseMdxFile (remark : String → List MdNode) (filePath content : String) :
    List DocChunk :=
  let (fm, body) := extractFrontmatter content
  chunksOf filePath fm (remark body)

end Mdx

namespace Db

open JsStr

/-- A row of the `docs` table (db/schema.ts). -/
structure DocRow where
  id : Nat
  title : String
  content : String
  module : String
  category : String
  version : String
  sourceUrl : Option String := none
deriving DecidableEq, Repr

/-- `SearchResult` (types.ts) as populated by `searchDocs`: the selected
columns plus the generated snippet and the selected constant `0 as rank`. -/
structure SearchResult where
  id : Nat
  title : String
  module : String
  category : String
  version : String
  sourceUrl : Option String
  snippet : String
  rank : Nat
deriving DecidableEq, Repr

/-- A row of the `contracts` table (db/schema.ts); `inheritance` is kept as
its stored JSON text. -/
structure ContractRow where
  id : Nat
  name : String
  type : String
  category : String
  version : String
  inheritance : String
  natspecNotice : Option String := none
  sourceUrl : Option String := none
deriving DecidableEq, Repr

/-- A row of the `members` table (db/schema.ts); `params`/`returns` are
kept as their stored JSON texts (the source decodes them with `JSON.parse`
at the boundary, which does not affect any claim here). -/
structure MemberRow where
  id : Nat
  contractId : Nat
  name : String
  type : String
  signature : String
  visibility : Option String := none
  mutability : Option String := none
  params : String := "[]"
  returns : String := "[]"
  natspecNotice : Option String := none
  natspecDev : Option String := none
  exampleCode : Option String := none
deriving DecidableEq, Repr

/-- `MemberDetails` (types.ts), with `params`/`returns` as stored texts. -/
structure MemberDetails where
  name : String
  type : String
  signature : String
  visibility : Option String
  mutability : Option String
  params : String
  returns : String
  natspecNotice : Option String
  natspecDev : Option String
  exampleCode : Option String
deriving DecidableEq, Repr

/-- `ContractDetails` (types.ts), with `inheritance` as stored text. -/
structure ContractDetails where
  name : String
  type : String
  category : String
  version : String
  inheritance : String
  natspecNotice : Option String
  sourceUrl : Option String
  functions : List MemberDetails
  events : List MemberDetails
  errors : List MemberDetails
  modifiers : List MemberDetails
deriving DecidableEq, Repr

/-- The relational store, with rows listed in insertion (rowid) order —
the scan order a query without `ORDER BY` returns. -/
structure Database where
  docs : List DocRow := []
  contracts : List ContractRow := []
  members : List MemberRow := []
deriving DecidableEq, Repr

/-- `toFtsQuery` (db/queries.ts): split on whitespace, drop empty terms,
quote each term and mark it as a prefix match. -/
def toFtsQuery (query : String) : String :=
  String.intercalate " "
    (((splitPred query isWs).filter fun term => term.data.length > 0).map
      fun term => "\"" ++ term ++ "\"*")

/-- ASCII alphanumeric test — the token characters of the FTS `simple`
tokenizer on the ASCII inputs of this system. -/
def isAlnum (c : Char) : Bool :=
  ('a' ≤ c ∧ c ≤ 'z') ∨ ('A' ≤ c ∧ c ≤ 'Z') ∨ ('0' ≤ c ∧ c ≤ '9')

/-- Tokenization of the external FTS engine's `simple` tokenizer: split on
non-alphanumeric characters, drop empties, lower-case. -/
def ftsTokens (s : String) : List String :=
  ((splitPred s fun c => ¬ isAlnum c).filter truthy).map lower

/-- Parser model of the external FTS engine's `MATCH` query syntax, the
fragment this system can generate: whitespace-separated terms, each either
a quoted phrase (optionally suffixed `*` for prefix matching) or a bare
word; a dangling or embedded quote is a syntax error (`none`), which the
engine reports by throwing.  The recursion is structural on `fuel`, always
sufficient at the input length. -/
def ftsParseGo : Nat → List Char → Option (List (String × Bool))
  | _, [] => some []
  | 0, _ => none
  | fuel + 1, c :: rest =>
    if isWs c then ftsParseGo fuel rest
    else if c = '"' then
      let phrase := rest.takeWhile (· ≠ '"')
      match rest.drop phrase.length with
      | [] => none
      | _ :: after2 =>
        let pre := after2.head? = some '*'
        let after3 := if pre then after2.drop 1 else after2
        match after3 with
        | [] => (ftsParseGo fuel []).map ((⟨phrase⟩, pre) :: ·)
        | c2 :: _ =>
          if isWs c2 then (ftsParseGo fuel after3).map ((⟨phrase⟩, pre) :: ·)
          else none
    else
      let word := (c :: rest).takeWhile fun ch => ¬ isWs ch ∧ ch ≠ '"'
      let after := (c :: rest).drop word.length
      match after with
      | '"' :: _ => none
      | _ =>
        let pre := word.getLast? = some '*'
        let word := if pre then word.take (word.length - 1) else word
        (ftsParseGo fuel after).map ((⟨word⟩, pre) :: ·)

/-- Parse an FTS `MATCH` string into its phrase list, or `none` on a syntax
error. -/
def ftsParse (q : String) : Option (List (String × Bool)) :=
  ftsParseGo q.data.length q.data

/-- Match of one query phrase against one token of a document. -/
def ftsTokenMatch (tok : String) (phrase : String) (pre : Bool) : Bool :=
  if pre then (lower phrase).data.isPrefixOf tok.data else tok = lower phrase

/-- A `docs_fts MATCH` hit: every phrase matches some token of some indexed
column (title, content, module, category). -/
def docMatches (d : DocRow) (phrases : List (String × Bool)) : Bool :=
  let toks := ftsTokens d.title ++ ftsTokens d.content ++ ftsTokens d.module ++
    ftsTokens d.category
  phrases.all fun p => toks.any fun t => ftsTokenMatch t p.1 p.2

/-- `searchDocs` (db/queries.ts): convert the query with `toFtsQuery`, run
the FTS match with the version/category facets (`"all"` disables a facet)
and the row limit, select the constant `0 as rank`, and catch any FTS
syntax error by returning the empty list.  The engine's `snippet`
generator is an external function, supplied as the oracle `snip`. -/
def searchDocs (db : Database) (query : String) (version : String := "5.x")
    (category : String := "all") (limit : Nat := 5)
    (snip : DocRow → String := fun _ => "") : List SearchResult :=
  match ftsParse (toFtsQuery query) with
  | none => []
  | some phrases =>
    ((db.docs.filter fun d => docMatches d phrases ∧
        (version = "all" ∨ d.version = version) ∧
        (category = "all" ∨ d.category = category)).take limit).map fun d =>
      { id := d.id, title := d.title, module := d.module, category := d.category,
        version := d.version, sourceUrl := d.sourceUrl, snippet := snip d, rank := 0 }

/-- Row-to-details conversion shared by `buildContractDetails` and
`getFunction`. -/
def toMemberDetails (m : MemberRow) : MemberDetails :=
  { name := m.name, type := m.type, signature := m.signature,
    visibility := m.visibility, mutability := m.mutability,
    params := m.params, returns := m.returns,
    natspecNotice := m.natspecNotice, natspecDev := m.natspecDev,
    exampleCode := m.exampleCode }

/-- The `ORDER BY type, name` relation of the members query. -/
def memberLe (a b : MemberRow) : Prop :=
  a.type < b.type ∨ (a.type = b.type ∧ a.name ≤ b.name)

instance : DecidableRel memberLe := fun a b => by
  unfold memberLe; infer_instance

/-- The `switch (member.type)` dispatch of `buildContractDetails`: append
the member's details to the list of its kind; any other kind is dropped. -/
def partitionStep
    (acc : List MemberDetails × List MemberDetails × List MemberDetails ×
      List MemberDetails) (m : MemberRow) :
    List MemberDetails × List MemberDetails × List MemberDetails ×
      List MemberDetails :=
  match acc with
  | (fns, evs, ers, mds) =>
    if m.type = "function" then (fns ++ [toMemberDetails m], evs, ers, mds)
    else if m.type = "event" then (fns, evs ++ [toMemberDetails m], ers, mds)
    else if m.type = "error" then (fns, evs, ers ++ [toMemberDetails m], mds)
    else if m.type = "modifier" then (fns, evs, ers, mds ++ [toMemberDetails m])
    else acc

/-- The members query of `buildContractDetails`:
`WHERE contract_id = ? ORDER BY type, name`, modelled as a sort of the
filtered scan by the `(type, name)` relation. -/
def sortedMembers (db : Database) (contract : ContractRow) : List MemberRow :=
  (db.members.filter fun m => m.contractId = contract.id).insertionSort memberLe

/-- `buildContractDetails` (db/queries.ts): load the owned members ordered
by `(type, name)` and partition them into the four kind lists. -/
def buildContractDetails (db : Database) (contract : ContractRow) : ContractDetails :=
  let members := sortedMembers db contract
  let partitioned := members.foldl partitionStep ([], [], [], [])
  { name := contract.name, type := contract.type, category := contract.category,
    version := contract.version, inheritance := contract.inheritance,
    natspecNotice := contract.natspecNotice, sourceUrl := contract.sourceUrl,
    functions := partitioned.1, events := partitioned.2.1,
    errors := partitioned.2.2.1, modifiers := partitioned.2.2.2 }

/-- `getContract` (db/queries.ts): an exact case-sensitive `(name,
version)` match first, then a case-insensitive fallback (`LOWER` on both
sides, ASCII as in SQLite), then `null`. -/
def getContract (db : Database) (name : String) (version : String := "5.x") :
    Option ContractDetails :=
  match db.contracts.find? fun r => r.name = name ∧ r.version = version with
  | some contract => some (buildContractDetails db contract)
  | none =>
    match db.contracts.find? fun r => lower r.name = lower name ∧ r.version = version with
    | some contract => some (buildContractDetails db contract)
    | none => none

/-- The members–contracts join of `getFunction`, filtered by an arbitrary
row predicate, in the scan order members-major. -/
def joinMembers (db : Database) (pred : MemberRow → ContractRow → Bool) :
    List MemberDetails :=
  db.members.flatMap fun m =>
    (db.contracts.filter fun c => c.id = m.contractId ∧ pred m c).map
      fun _ => toMemberDetails m

/-- `getFunction` (db/queries.ts): `Contract.function` identifiers are
split on `'.'` (segments beyond the second are dropped by the source's
`parts[0]`/`parts[1]` selection); a truthy contract name filters the join
to that contract, otherwise the member name is matched across all
contracts of the version; only members of kind `function` are returned. -/
def getFunction (db : Database) (functionName : String)
    (contractName : Option String := none) (version : String := "5.x") :
    List MemberDetails :=
  let split :=
    if includes functionName "." ∧ contractName = none then
      let parts := splitOn functionName "."
      (parts.getD 1 "", some (parts.getD 0 ""))
    else (functionName, contractName)
  match split with
  | (fn, cn) =>
    if truthyO cn then
      joinMembers db fun m c =>
        m.name = fn ∧ c.name = cn.getD "" ∧ c.version = version ∧ m.type = "function"
    else
      joinMembers db fun m c =>
        m.name = fn ∧ c.version = version ∧ m.type = "function"

end Db

section Scratch

example : JsStr.trim "  ab c  " = "ab c" := by decide
example : JsStr.splitOn "a.b.c" "." = ["a", "b", "c"] := by decide
example : JsStr.splitOn "a--b" "-" = ["a", "", "b"] := by decide
example : JsStr.includes "x/mocks/y" "/mocks/" = true := by decide
example : JsStr.includes "x/mock/y" "/mocks/" = false := by decide
example : JsStr.natStr 10 = "10" := by decide
example : JsStr.upper "erc-20a" = "ERC-20A" := by decide
example : JsStr.startsWith "@notice hi" "@notice" = true := by decide
example : JsStr.sliceFrom "@notice hi" 7 = " hi" := by decide
example : JsStr.dropRight "abc*/" 2 = "abc" := by decide

example : Solidity.parseNatSpecContent "@notice Hello world" =
    some { notice := some "Hello world" } := by decide

example : Solidity.parseNatSpecContent "@notice A\nB cont" =
    some { notice := some "A B cont" } := by decide

example : Solidity.parseNatSpecContent "@notice A\n@dev B" =
    some { dev := some "B" } := by decide

example : Solidity.parseNatSpecContent "@dev Returns x.\n@param account The address." =
    some { params := [("account", "The address.")] } := by decide

example : Solidity.parseNatSpecContent "@return The value" =
    some { returns := [("The", "value")] } := by decide

example : Solidity.parseNatSpecContent "@return  x" =
    some { returns := [("x", "")] } := by decide

example : Solidity.parseNatSpecContent "@custom:security note" = none := by decide

example : Solidity.findNatSpecBefore 4
    (Solidity.extractNatSpecComments
      "/**\n * @notice Transfers tokens\n */\nfunction transfer() public") =
    some { notice := some "Transfers tokens" } := by decide

example : Solidity.findNatSpecBefore 6
    (Solidity.extractNatSpecComments
      "/**\n * @notice Transfers tokens\n */\n\n\nfunction transfer() public") =
    some { notice := some "Transfers tokens" } := by decide

example : Solidity.findNatSpecBefore 3
    (Solidity.extractNatSpecComments
      "/// @notice Hi\n\nfunction f() public") =
    some { notice := some "Hi" } := by decide

example : Solidity.findNatSpecBefore 4
    (Solidity.extractNatSpecComments
      "/// @notice Hi\n\n\nfunction f() public") = none := by decide

example : Solidity.findNatSpecBefore 3
    (Solidity.extractNatSpecComments
      "/// @notice A\n/// @notice B\nfunction f() public") =
    some { notice := some "A B" } := by decide

example : Solidity.detectCategory "x/contracts/token/ERC20/ERC20.sol" = "token" := by
  decide

example : Solidity.detectCategory "x/contracts/other/Foo.sol" = "general" := by decide

example : Solidity.buildGitHubUrl "data/contracts-v5/contracts/token/ERC20.sol" "5.x" =
    "https://github.com/OpenZeppelin/openzeppelin-contracts/blob/v5.3.0/contracts/token/ERC20.sol" := by
  decide

example :
    (Solidity.parseFunctionDefinition
      { name := some "f",
        returnParameters := [{ name := none, typeName := some (.elementary "uint256") }] }
      (some { returns := [("0", "the result")] })).map (·.returns) =
    some [{ name := none, type := "uint256", description := some "the result" }] := by
  decide

example :
    (Solidity.parseFunctionDefinition
      { name := some "f",
        returnParameters := [{ name := some "a", typeName := some (.elementary "uint256") }] }
      (some { returns := [("_0", "D")] })).map (·.returns) =
    some [{ name := some "a", type := "uint256", description := none }] := by
  decide

example : Mdx.detectModule "pages/erc-20.mdx" = "ERC20" := by decide
example : Mdx.detectModule "pages/erc_20.mdx" = "ERC_20" := by decide
example : Mdx.detectModule "pages/access-control.mdx" = "AccessControl" := by decide
example : Mdx.detectModule "pages/Erc-20.mdx" = "Erc20" := by decide

example : Mdx.extractSections [.paragraph [.text "intro"], .heading 2 [.inlineCode "api"]] =
    [] := by decide

example : Mdx.extractSections [.paragraph [.text "intro"], .heading 2 [.text "Title"],
      .paragraph [.text "body"]] =
    [{ title := "Title", content := "Title\nbody\nbody\n", level := 2,
       codeExamples := [] }] := by decide

example : (Mdx.chunksOf "docs/guide.mdx" []
      [.paragraph [.text "intro"], .heading 2 [.inlineCode "api"]]).map (·.content) =
    ["intro"] := by decide

example : Mdx.chunksOf "docs/guide.mdx" [] [] = [] := by decide

example : Mdx.extractFrontmatter "---\ntitle: My Guide\n---\nbody text" =
    ([("title", "My Guide")], "body text") := by decide

example : Db.toFtsQuery "reentrancy guard" = "\"reentrancy\"* \"guard\"*" := by decide

example : Db.ftsParse "\"reentrancy\"* \"guard\"*" =
    some [("reentrancy", true), ("guard", true)] := by decide

example : Db.ftsParse (Db.toFtsQuery "ab\"cd") = none := by decide

end Scratch

namespace Samples

/-- A one-document store for concrete evaluations. -/
def docDb : Db.Database where
  docs := [{ id := 1, title := "T", content := "transfer tokens", module := "M",
             category := "token", version := "5.x" }]

/-- A one-contract store holding `ERC20.transfer` for concrete evaluations. -/
def erc20Db : Db.Database where
  contracts := [{ id := 1, name := "ERC20", type := "contract", category := "token",
                  version := "5.x", inheritance := "[]" }]
  members := [{ id := 1, contractId := 1, name := "transfer", type := "function",
                signature := "function transfer() public" }]

/-- A store whose single function has a dot in its name. -/
def dottedDb : Db.Database where
  contracts := [{ id := 1, name := "A", type := "contract", category := "general",
                  version := "5.x", inheritance := "[]" }]
  members := [{ id := 1, contractId := 1, name := "B.C", type := "function",
                signature := "function B.C() public" }]

end Samples

section Scratch2

example : (Db.searchDocs Samples.docDb "transfer" "all" "all" 5).map
    (fun r => (r.id, r.rank)) = [(1, 0)] := by decide

example : Db.searchDocs Samples.docDb "ab\"cd" "all" "all" 5 = [] := by decide

example : (Db.getContract Samples.erc20Db "erc20" "5.x").map (·.name) =
    some "ERC20" := by decide

example : Db.getFunction Samples.dottedDb "A.B.C" none "5.x" = [] := by decide

example : (Db.getFunction Samples.erc20Db "ERC20.transfer" none "5.x").map (·.name) =
    ["transfer"] := by decide

end Scratch2

namespace Db

/-- Claim-side (spec-worded) definition for C2: the term frequency of one
query phrase in a document — the number of tokens of the document's indexed
columns that the phrase matches. -/
def claimedTermFreq (d : DocRow) (p : String × Bool) : Nat :=
  ((ftsTokens d.title ++ ftsTokens d.content ++ ftsTokens d.module ++
    ftsTokens d.category).filter fun t => ftsTokenMatch t p.1 p.2).length

/-- Claim-side (spec-worded) definition for C2: the document frequency of
one query phrase — how many documents of the corpus it matches. -/
def claimedDocFreq (docs : List DocRow) (p : String × Bool) : Nat :=
  (docs.filter fun d => claimedTermFreq d p > 0).length

/-- Claim-side (spec-worded) definition for C2: a term-frequency /
inverse-document-frequency style score in natural-number arithmetic — the
sum over query phrases of the phrase's term frequency in the document
weighted by corpus size over document frequency.  Any score of this style
grows with the term frequency, which is all the counterexample needs. -/
def claimedTfIdfScore (docs : List DocRow) (phrases : List (String × Bool))
    (d : DocRow) : Nat :=
  phrases.foldl (fun acc p =>
    acc + claimedTermFreq d p * (docs.length / max 1 (claimedDocFreq docs p))) 0

end Db

namespace Samples

/-- First document of the ranking corpus: one `transfer` token. -/
def rankDoc1 : Db.DocRow :=
  { id := 1, title := "a", content := "transfer guard pad", module := "m",
    category := "c", version := "5.x" }

/-- Second document of the ranking corpus: five `transfer` tokens. -/
def rankDoc2 : Db.DocRow :=
  { id := 2, title := "a", content := "transfer transfer transfer transfer transfer",
    module := "m", category := "c", version := "5.x" }

/-- Two-document corpus whose term statistics differ between documents. -/
def rankDb : Db.Database where
  docs := [rankDoc1, rankDoc2]

end Samples

namespace Solidity

/-- Claim-side (spec-worded) definition for C3: look the return description
up by the return's own name when it has one, else by an underscore followed
by the zero-based index, else by the bare index as text — three keys in
that order, stopping at the first present entry. -/
def claimedReturnDescription (ns : NatSpecComment) (name : Option String)
    (idx : Nat) : Option String :=
  match name with
  | some n =>
    ((JsObj.aGet ns.returns n).orElse fun _ =>
      JsObj.aGet ns.returns ("_" ++ JsStr.natStr idx)).orElse fun _ =>
        JsObj.aGet ns.returns (JsStr.natStr idx)
  | none =>
    (JsObj.aGet ns.returns ("_" ++ JsStr.natStr idx)).orElse fun _ =>
      JsObj.aGet ns.returns (JsStr.natStr idx)

/-- C3 as amended: only two keys are ever tried — the first key is the
return's own name when that is non-empty, else the underscore-index key;
the bare index key is the single fallback, also taken when the first
lookup produced an empty string (JavaScript truthiness). -/
def amendedReturnDescription (ns : NatSpecComment) (name : Option String)
    (idx : Nat) : Option String :=
  let firstKey := match name with
    | some n => if n = "" then "_" ++ JsStr.natStr idx else n
    | none => "_" ++ JsStr.natStr idx
  match JsObj.aGet ns.returns firstKey with
  | some v => if v = "" then JsObj.aGet ns.returns (JsStr.natStr idx) else some v
  | none => JsObj.aGet ns.returns (JsStr.natStr idx)

end Solidity

namespace Samples

/-- A function node with one named return value, for the C3 evaluations. -/
def fNode : Solidity.FunctionNode :=
  { name := some "f",
    returnParameters := [{ name := some "a", typeName := some (.elementary "uint256") }] }

/-- A comment whose `returns` map holds only the underscore-index key. -/
def fNs : Solidity.NatSpecComment := { returns := [("_0", "D")] }

/-- The walker's output on `fNode`/`fNs`. -/
def fInfo : Solidity.FunctionInfo :=
  { name := "f"
    signature := "function f() public returns (uint256)"
    visibility := "public"
    mutability := ""
    params := []
    returns := [{ name := some "a", type := "uint256", description := none }] }

end Samples

namespace Db

/-- Claim-side (spec-worded) definition for C4: an identifier containing
the separator is split on its first occurrence into contract and member
(the member keeps everything after the first separator), and the result is
filtered to that contract; otherwise the member name alone is matched. -/
def claimedGetFunction (db : Database) (identifier version : String) :
    List MemberDetails :=
  if JsStr.includes identifier "." then
    match JsStr.splitOn identifier "." with
    | [] => []
    | contract :: restPieces =>
      let member := String.intercalate "." restPieces
      joinMembers db fun m c =>
        m.name = member ∧ c.name = contract ∧ c.version = version ∧ m.type = "function"
  else
    joinMembers db fun m c =>
      m.name = identifier ∧ c.version = version ∧ m.type = "function"

/-- C4 as amended: the identifier is split on **all** separator
occurrences; the contract name is the first segment and the member name the
second segment (text beyond the second separator is dropped); a non-empty
contract segment filters to that contract, an empty one degrades to
member-name-only matching; without a separator the whole identifier is the
member name.  Every matching function is returned, with no uniqueness
assumed. -/
def amendedGetFunction (db : Database) (identifier version : String) :
    List MemberDetails :=
  match JsStr.splitOn identifier "." with
  | [] =>
    joinMembers db fun m c =>
      m.name = identifier ∧ c.version = version ∧ m.type = "function"
  | [_] =>
    joinMembers db fun m c =>
      m.name = identifier ∧ c.version = version ∧ m.type = "function"
  | contract :: member :: _ =>
    if contract = "" then
      joinMembers db fun m c =>
        m.name = member ∧ c.version = version ∧ m.type = "function"
    else
      joinMembers db fun m c =>
        m.name = member ∧ c.name = contract ∧ c.version = version ∧ m.type = "function"

end Db

namespace JsStr

/-- `splitOnL` always yields at least one piece. -/
theorem splitOnL_ne_nil (sep : List Char) :
    ∀ (fuel : Nat) (l acc : List Char), splitOnL sep fuel l acc ≠ [] := by
  intro fuel
  induction fuel with
  | zero => intro l acc; cases l <;> simp [splitOnL]
  | succ n ih =>
    intro l acc
    cases l with
    | nil => simp [splitOnL]
    | cons c rest =>
      simp only [splitOnL]
      split
      · simp
      · exact ih rest (c :: acc)

/-- `splitOn` always yields at least one piece, as in JavaScript. -/
theorem splitOn_ne_nil (s sep : String) : splitOn s sep ≠ [] := by
  unfold splitOn
  intro h
  exact splitOnL_ne_nil sep.data s.data.length s.data [] (List.map_eq_nil_iff.mp h)

end JsStr

namespace JsStr

/-- JavaScript `a || b` on option strings, written as an explicit match. -/
theorem orO_eq_match (a b : Option String) :
    orO a b = match a with
      | some v => if v = "" then b else some v
      | none => b := by
  cases a with
  | none => rfl
  | some v => by_cases hv : v = "" <;> simp [orO, truthyO, truthy, hv]

/-- JavaScript `a || k` with a present default, written as an explicit
match. -/
theorem orS_eq_match (name : Option String) (k : String) :
    orS name k = match name with
      | none => k
      | some n => if n = "" then k else n := by
  cases name with
  | none => rfl
  | some n => by_cases hn : n = "" <;> simp [orS, truthy, hn]

end JsStr

namespace Solidity

/-- Mapping over an indexed map composes pointwise. -/
theorem map_mapWithIndex {α β γ : Type} (g : Nat → α → β) (h : β → γ) :
    ∀ (k : Nat) (l : List α),
      (mapWithIndex g k l).map h = mapWithIndex (fun i a => h (g i a)) k l := by
  intro k l
  induction l generalizing k with
  | nil => rfl
  | cons a rest ih => simp [mapWithIndex, ih]

/-- An indexed map is the plain map of the index range, reading the list by
position. -/
theorem mapWithIndex_eq_range_map {α β : Type} (g : Nat → α → β) (d : α) :
    ∀ (k : Nat) (l : List α),
      mapWithIndex g k l =
        (List.range l.length).map fun i => g (k + i) (l.getD i d) := by
  intro k l
  induction l generalizing k with
  | nil => rfl
  | cons a rest ih =>
    simp only [mapWithIndex, List.length_cons, List.range_succ_eq_map,
      List.map_cons, List.map_map]
    congr 1
    rw [ih (k + 1)]
    apply List.map_congr_left
    intro i _
    simp only [Function.comp_apply, List.getD_cons_succ]
    congr 1
    omega

end Solidity

namespace Mdx

/-- Two strings with the same character data are equal. -/
theorem strMk_eq {l : List Char} {s : String} (h : l = s.data) : (⟨l⟩ : String) = s := by
  cases s
  exact congrArg String.mk h

/-- Concatenating strings concatenates their data, stated for rewriting
under a constructor. -/
theorem mk_data_append (a b : String) : (⟨a.data ++ b.data⟩ : String) = a ++ b :=
  (strMk_eq (String.data_append a b).symm).symm ▸ rfl

/-- `takeWhile` stops exactly at the first failing element after a run of
satisfying ones. -/
theorem takeWhile_append_stop {p : Char → Bool} :
    ∀ {l1 : List Char}, (∀ c ∈ l1, p c = true) → ∀ {x : Char}, p x = false →
      ∀ (l2 : List Char), (l1 ++ x :: l2).takeWhile p = l1 := by
  intro l1
  induction l1 with
  | nil =>
    intro _ x hx l2
    rw [List.nil_append, List.takeWhile_cons_of_neg (by simp [hx])]
  | cons a rest ih =>
    intro h x hx l2
    have ha : p a = true := h a (List.mem_cons_self a rest)
    simp only [List.cons_append, List.takeWhile_cons_of_pos ha]
    rw [ih (fun c hc => h c (List.mem_cons_of_mem a hc)) hx l2]

/-- A genuine suffix registers as `isSuffixOf`. -/
theorem isSuffixOf_of_suffix {l1 l2 : List Char} (h : List.IsSuffix l1 l2) :
    l1.isSuffixOf l2 = true := by
  rw [List.isSuffixOf]
  exact List.isPrefixOf_iff_prefix.mpr (by simpa [List.reverse_prefix] using h)

/-- The last segment of `dir ++ "/" ++ name ++ tailStr` is
`name ++ tailStr` when neither part contains a slash. -/
theorem lastSegment_concat (dir name tailStr : String)
    (h2 : ∀ c ∈ name.data, c ≠ '/') (h4 : ∀ c ∈ tailStr.data, c ≠ '/') :
    lastSegment (dir ++ "/" ++ name ++ tailStr) = name ++ tailStr := by
  have hdata : (dir ++ "/" ++ name ++ tailStr).data =
      dir.data ++ '/' :: (name.data ++ tailStr.data) := by
    rw [String.data_append, String.data_append, String.data_append]
    rw [show ("/" : String).data = ['/'] from rfl]
    simp [List.append_assoc]
  have hall : ∀ c ∈ (name.data ++ tailStr.data).reverse,
      (fun c => decide (c ≠ '/')) c = true := by
    intro c hc
    rcases List.mem_append.mp (List.mem_reverse.mp hc) with h | h
    · simpa using h2 c h
    · simpa using h4 c h
  have hlist : ((dir ++ "/" ++ name ++ tailStr).data.reverse.takeWhile
      (fun c => decide (c ≠ '/'))).reverse = name.data ++ tailStr.data := by
    rw [hdata, List.reverse_append, List.reverse_cons, List.append_assoc,
      List.singleton_append]
    rw [takeWhile_append_stop hall (by decide) dir.data.reverse]
    exact List.reverse_reverse _
  calc lastSegment (dir ++ "/" ++ name ++ tailStr)
      = ⟨name.data ++ tailStr.data⟩ := by rw [lastSegment, hlist]
    _ = name ++ tailStr := mk_data_append name tailStr

/-- The extension of `name ++ ".mdx"` is `.mdx` when the bare name is
non-empty (its last dot is the one of `.mdx`). -/
theorem extnameCore_concat (nm : List Char) (h1 : nm ≠ []) :
    extnameCore (nm ++ ".mdx".data) = ".mdx" := by
  have hrev : (nm ++ ".mdx".data).reverse = 'x' :: 'd' :: 'm' :: '.' :: nm.reverse := by
    rw [List.reverse_append]
    rfl
  have htw : (('x' : Char) :: 'd' :: 'm' :: '.' :: nm.reverse).takeWhile
      (fun c => decide (c ≠ '.')) = ['x', 'd', 'm'] := by
    rw [List.takeWhile_cons_of_pos (by decide), List.takeWhile_cons_of_pos (by decide),
      List.takeWhile_cons_of_pos (by decide), List.takeWhile_cons_of_neg (by decide)]
  have hlen : (nm ++ ".mdx".data).length = nm.length + 4 := by
    simp [List.length_append]
  have hpos : 0 < nm.length := List.length_pos.mpr h1
  have hc1 : ¬((['x', 'd', 'm'] : List Char).length = nm.length + 4) := by
    simp only [List.length_cons, List.length_nil]
    omega
  have hc2 : ¬(nm.length + 4 - (['x', 'd', 'm'] : List Char).length - 1 = 0) := by
    simp only [List.length_cons, List.length_nil]
    omega
  have hc3 : nm.length + 4 - (['x', 'd', 'm'] : List Char).length - 1 = nm.length := by
    simp only [List.length_cons, List.length_nil]
    omega
  unfold extnameCore
  simp only [hrev, htw, hlen]
  rw [if_neg hc1, if_neg hc2, hc3]
  rw [show (nm ++ ".mdx".data).drop nm.length = ".mdx".data from List.drop_left nm _]

/-- Stripping a `.mdx` extension from a last segment `name ++ ".mdx"`
recovers the bare name. -/
theorem basenameExt_strip (p name : String)
    (hseg : lastSegment p = name ++ ".mdx") (h1 : name.data ≠ []) :
    basenameExt p ".mdx" = name := by
  have hdata : (name ++ ".mdx").data = name.data ++ ".mdx".data :=
    String.data_append _ _
  have hne : (name ++ ".mdx") ≠ ".mdx" := by
    intro h
    have := congrArg (fun s => s.data.length) h
    simp only [hdata, List.length_append] at this
    have : name.data.length + 4 = 4 := by simpa using this
    have := List.length_pos.mpr h1
    omega
  have hsuf : JsStr.endsWith (name ++ ".mdx") ".mdx" = true := by
    unfold JsStr.endsWith
    rw [hdata]
    exact isSuffixOf_of_suffix ⟨name.data, rfl⟩
  unfold basenameExt
  rw [hseg]
  rw [if_pos ⟨by decide, hne, hsuf⟩]
  unfold JsStr.dropRight
  apply strMk_eq
  rw [hdata]
  rw [show (name.data ++ ".mdx".data).length - (".mdx" : String).data.length =
    name.data.length by
      simp only [List.length_append, show (".mdx" : String).data.length = 4 from rfl]
      omega]
  exact List.take_left name.data _

/-- Claim-side (spec-worded) definition for C6: the `erc` prefix is tested
case-insensitively, and in the `erc` branch both separators (hyphen and
underscore) are removed from the upper-cased filename. -/
def claimedDetectModule (filePath : String) : String :=
  let basename := basenameExt filePath (extnameOf filePath)
  if JsStr.startsWith (JsStr.lower basename) "erc" then
    ⟨(JsStr.upper basename).data.filter fun c => ¬ (c = '-' ∨ c = '_')⟩
  else
    String.join ((JsStr.splitPred basename fun c => c = '-' ∨ c = '_').map capitalizePart)

end Mdx

namespace Solidity

/-- One member step never changes the contract's category. -/
theorem memberStep_category (natspecMap : NatSpecMap) (c : ContractInfo)
    (sub : SubNode) : (memberStep natspecMap c sub).category = c.category := by
  cases sub with
  | functionDefinition fn =>
    simp only [memberStep]
    cases parseFunctionDefinition fn (findNatSpecBefore (fn.locLine.getD 0) natspecMap) <;>
      rfl
  | eventDefinition ev => rfl
  | errorDefinition er => rfl
  | modifierDefinition md => rfl

/-- The member walk never changes the contract's category. -/
theorem memberFold_category (natspecMap : NatSpecMap) :
    ∀ (subs : List SubNode) (c : ContractInfo),
      (subs.foldl (memberStep natspecMap) c).category = c.category := by
  intro subs
  induction subs with
  | nil => intro c; rfl
  | cons sub rest ih =>
    intro c
    rw [List.foldl_cons, ih, memberStep_category]

/-- The walker's member accumulation never changes the contract's category:
it is fixed by the file path before the member walk. -/
theorem parseContractDefinition_category (node : ContractNode)
    (filePath version : String) (natspecMap : NatSpecMap) :
    (parseContractDefinition node filePath version natspecMap).category =
      detectCategory filePath := by
  unfold parseContractDefinition
  rw [memberFold_category]

/-- A path that does not contain `/mocks/` is never categorized `mocks`. -/
theorem detectCategory_ne_mocks (path : String)
    (h : JsStr.includes path "/mocks/" = false) :
    detectCategory path ≠ "mocks" := by
  unfold detectCategory
  cases hf : CATEGORY_PATTERNS.find? (fun p => JsStr.includes path p.2) with
  | none => decide
  | some p =>
    intro hc
    have hmem := List.mem_of_find?_eq_some hf
    have hpred := List.find?_some hf
    simp only [CATEGORY_PATTERNS, List.mem_cons, List.not_mem_nil, or_false] at hmem
    rcases hmem with h1 | h1 | h1 | h1 | h1 | h1 | h1 | h1 | h1 | h1 | h1 <;>
      subst h1 <;> simp_all

/-- Every contract that the build produces comes from a kept file (one
whose path contains neither `/mocks/` nor `/test/`). -/
theorem parseSolidityFiles_mem_of_mem
    (parse : String → List ContractNode) (version : String) :
    ∀ (files : List (String × String)) (acc : List ContractInfo)
      (c : ContractInfo),
      c ∈ files.foldl (fun acc file =>
        if JsStr.includes file.1 "/mocks/" ∨ JsStr.includes file.1 "/test/" then acc
        else acc ++ parseSolidityFile parse file.1 version file.2) acc →
      c ∈ acc ∨ ∃ f ∈ files, JsStr.includes f.1 "/mocks/" = false ∧
        JsStr.includes f.1 "/test/" = false ∧
        c ∈ parseSolidityFile parse f.1 version f.2 := by
  intro files
  induction files with
  | nil => intro acc c hc; exact Or.inl hc
  | cons f rest ih =>
    intro acc c hc
    simp only [List.foldl_cons] at hc
    rcases ih _ c hc with hacc | ⟨g, hg, hng⟩
    · by_cases hskip : JsStr.includes f.1 "/mocks/" ∨ JsStr.includes f.1 "/test/"
      · rw [if_pos hskip] at hacc
        exact Or.inl hacc
      · rw [if_neg hskip] at hacc
        rcases List.mem_append.mp hacc with hacc | hnew
        · exact Or.inl hacc
        · refine Or.inr ⟨f, List.mem_cons_self f rest, ?_, ?_, hnew⟩
          · simpa using fun hx => hskip (Or.inl hx)
          · simpa using fun hx => hskip (Or.inr hx)
    · exact Or.inr ⟨g, List.mem_cons_of_mem f hg, hng⟩

end Solidity

namespace Mdx

/-- A boundary heading: a second- or third-level heading, the only nodes
that start a new chunk in `extractSections`. -/
def isBoundary : MdNode → Bool
  | .heading d _ => d = 2 ∨ d = 3
  | _ => false

/-- With no active section, the visitor ignores every node before the first
boundary heading: the section scan of the preorder sequence equals the scan
of its suffix starting at the first boundary. -/
theorem sectionsGo_dropWhile :
    ∀ (l : List MdNode),
      sectionsGo l none [] =
        sectionsGo (l.dropWhile fun n => ! isBoundary n) none [] := by
  intro l
  induction l with
  | nil => rfl
  | cons n rest ih =>
    by_cases hb : isBoundary n = true
    · rw [List.dropWhile_cons, if_neg (by simp [hb])]
    · have hfalse : isBoundary n = false := by
        revert hb
        cases isBoundary n <;> simp
      rw [List.dropWhile_cons, if_pos (by simp [hfalse])]
      rw [← ih]
      cases n with
      | heading d ch =>
        have hd : ¬(d = 2 ∨ d = 3) := by
          intro hdor
          exact hb (by simp [isBoundary, hdor])
        simp only [sectionsGo, if_neg hd]
      | paragraph ch => rfl
      | text v => rfl
      | code lang v => rfl
      | inlineCode v => rfl
      | container ch => rfl

/-- The single chunk of the whole-document fallback of `parseMdxFile`. -/
def wholeDocChunk (filePath : String) (fm : List (String × String))
    (tree : List MdNode) : DocChunk :=
  { title := JsStr.orS (JsObj.aGet fm "title") (detectModule filePath)
    content := extractAllText tree
    category := detectCategory filePath
    module := detectModule filePath
    version := detectVersion filePath
    sourceType := detectSourceType filePath
    sourceUrl := buildSourceUrl filePath (detectVersion filePath)
    filePath := filePath }

end Mdx

namespace Solidity

/-- Setting one key leaves every other key's lookup unchanged. -/
theorem aGetN_aSetN_ne (k : Nat) (v : NatSpecComment) (k' : Nat) (h : k' ≠ k) :
    ∀ (m : NatSpecMap), aGetN (aSetN m k v) k' = aGetN m k' := by
  intro m
  induction m with
  | nil =>
    simp only [aSetN, aGetN]
    rw [if_neg fun hx => h hx.symm]
  | cons kv rest ih =>
    obtain ⟨k1, v1⟩ := kv
    by_cases hk : k1 = k
    · subst hk
      simp only [aSetN, if_pos rfl, aGetN]
      simp only [if_neg (show ¬ (k1 = k') from fun hx => h hx.symm)]
    · simp only [aSetN, if_neg hk, aGetN]
      by_cases hk' : k1 = k'
      · simp [hk']
      · simp [hk', ih]

/-- `firstNonBlankIdx` never looks backwards: a found index is at least the
base. -/
theorem firstNonBlankIdx_ge :
    ∀ (lines : List String) (base j : Nat),
      firstNonBlankIdx lines base = some j → base ≤ j := by
  intro lines
  induction lines with
  | nil => intro base j h; exact absurd h (by simp [firstNonBlankIdx])
  | cons line rest ih =>
    intro base j h
    unfold firstNonBlankIdx at h
    by_cases ht : JsStr.truthy (JsStr.trim line) = true
    · rw [if_pos ht] at h
      exact (Option.some.injEq _ _ ▸ h : base = j) ▸ Nat.le_refl base
    · rw [if_neg ht] at h
      exact Nat.le_of_succ_le (ih (base + 1) j h)

/-- One extractor step writes only keys strictly beyond the current line
index: lookups at or below it are unchanged. -/
theorem extractStep_preserve (st : ExtractState) (line : String) (i : Nat)
    (rest : List String) (k : Nat) (hk : k ≤ i) :
    aGetN (extractStep st line i rest).map k = aGetN st.map k := by
  unfold extractStep
  by_cases h1 : JsStr.startsWith (JsStr.trim line) "/**" = true
  · rw [if_pos h1]
  · rw [if_neg h1]
    by_cases h2 : st.inBlockComment = true
    · rw [if_pos h2]
      by_cases h3 : JsStr.endsWith (JsStr.trim line) "*/" = true
      · rw [if_pos h3]
        cases hp : parseNatSpecContent (String.intercalate "\n"
            (st.currentComment ++ [JsStr.dropRight (JsStr.trim line) 2])) with
        | none => rfl
        | some ns =>
          cases hj : firstNonBlankIdx rest (i + 1) with
          | none => rfl
          | some j =>
            have hij : i + 1 ≤ j := firstNonBlankIdx_ge rest (i + 1) j hj
            exact aGetN_aSetN_ne (j + 1) ns k (by omega) st.map
      · rw [if_neg h3]
    · rw [if_neg h2]
      by_cases h4 : JsStr.startsWith (JsStr.trim line) "///" = true
      · rw [if_pos h4]
        by_cases h5 : st.commentEndLine = (i : Int)
        · rw [if_pos h5]
          cases hg : aGetN st.map (i + 1) with
          | none => rfl
          | some prev =>
            cases hp : parseNatSpecContent (JsStr.trim (JsStr.sliceFrom
                (JsStr.trim line) 3)) with
            | none => rfl
            | some ns =>
              exact aGetN_aSetN_ne (i + 1) (mergeNatSpec prev ns) k (by omega) st.map
        · rw [if_neg h5]
          cases hp : parseNatSpecContent (JsStr.trim (JsStr.sliceFrom
              (JsStr.trim line) 3)) with
          | none => rfl
          | some ns => exact aGetN_aSetN_ne (i + 2) ns k (by omega) st.map
      · rw [if_neg h4]

/-- The extractor loop from index `i` never changes lookups at keys at or
below `i`. -/
theorem extractGo_preserve :
    ∀ (lines : List String) (i : Nat) (st : ExtractState) (k : Nat), k ≤ i →
      aGetN (extractGo lines i st).map k = aGetN st.map k := by
  intro lines
  induction lines with
  | nil => intro i st k _; rfl
  | cons line rest ih =>
    intro i st k hk
    show aGetN (extractGo rest (i + 1) (extractStep st line i rest)).map k = _
    rw [ih (i + 1) _ k (by omega)]
    exact extractStep_preserve st line i rest k hk

/-- A blank line is a no-op for the extractor outside a block comment. -/
theorem extractStep_blank (st : ExtractState) (i : Nat) (rest : List String)
    (h : st.inBlockComment = false) : extractStep st "" i rest = st := by
  unfold extractStep
  rw [if_neg (by decide), if_neg (by simp [h]), if_neg (by decide)]

/-- A run of blank lines only advances the line counter. -/
theorem extractGo_blanks (st : ExtractState) (h : st.inBlockComment = false) :
    ∀ (k i : Nat) (tail : List String),
      extractGo (List.replicate k "" ++ tail) i st = extractGo tail (i + k) st := by
  intro k
  induction k with
  | zero => intro i tail; rfl
  | succ n ih =>
    intro i tail
    show extractGo ("" :: (List.replicate n "" ++ tail)) i st = _
    show extractGo (List.replicate n "" ++ tail) (i + 1)
      (extractStep st "" i (List.replicate n "" ++ tail)) = _
    rw [extractStep_blank st i _ h, ih (i + 1) tail]
    congr 1
    omega

/-- Evaluation of the extractor on a canonical three-line block comment at
the start of a file: the block closes at line 3 and its parsed notice is
keyed at the first non-blank line that follows. -/
theorem extractGo_block_prefix (tail : List String) :
    extractGo ("/**" :: " * @notice Transfers tokens" :: " */" :: tail) 0 {} =
      extractGo tail 3
        { inBlockComment := false, currentComment := [], commentEndLine := 3,
          map := match firstNonBlankIdx tail 3 with
            | some j => [(j + 1, { notice := some "Transfers tokens" })]
            | none => [] } := rfl

/-- Evaluation of the extractor on a single `///` notice line at the start
of a file: the parsed notice is keyed at the next line (1-indexed 2). -/
theorem extractGo_line_prefix (tail : List String) :
    extractGo ("/// @notice Hi" :: tail) 0 {} =
      extractGo tail 1
        { inBlockComment := false, currentComment := [], commentEndLine := 1,
          map := [(2, { notice := some "Hi" })] } := rfl

/-- The first non-blank line after a run of `k` blank lines is the line
right after the run. -/
theorem firstNonBlankIdx_blanks (decl : String) (rest : List String)
    (hd : JsStr.truthy (JsStr.trim decl) = true) :
    ∀ (k base : Nat),
      firstNonBlankIdx (List.replicate k "" ++ decl :: rest) base = some (base + k) := by
  intro k
  induction k with
  | zero =>
    intro base
    show firstNonBlankIdx (decl :: rest) base = some (base + 0)
    unfold firstNonBlankIdx
    rw [if_pos hd, Nat.add_zero]
  | succ n ih =>
    intro base
    show firstNonBlankIdx ("" :: (List.replicate n "" ++ decl :: rest)) base = _
    unfold firstNonBlankIdx
    rw [if_neg (by decide), ih (base + 1)]
    congr 1
    omega

/-- A non-blank, non-`///` line leaves the extractor map unchanged when no
block comment is open. -/
theorem extractStep_map_const (st : ExtractState) (line : String) (i : Nat)
    (rest : List String) (hb : st.inBlockComment = false)
    (h3 : JsStr.startsWith (JsStr.trim line) "///" = false) :
    (extractStep st line i rest).map = st.map := by
  unfold extractStep
  by_cases h1 : JsStr.startsWith (JsStr.trim line) "/**" = true
  · rw [if_pos h1]
  · rw [if_neg h1, if_neg (by simp [hb]), if_neg (by simp [h3])]

end Solidity

namespace Db

instance : IsTotal MemberRow memberLe :=
  ⟨fun a b => by
    unfold memberLe
    rcases lt_trichotomy a.type b.type with h | h | h
    · exact Or.inl (Or.inl h)
    · rcases le_total a.name b.name with hn | hn
      · exact Or.inl (Or.inr ⟨h, hn⟩)
      · exact Or.inr (Or.inr ⟨h.symm, hn⟩)
    · exact Or.inr (Or.inl h)⟩

instance : IsTrans MemberRow memberLe :=
  ⟨fun a b c hab hbc => by
    unfold memberLe at *
    rcases hab with h1 | ⟨h1, h1n⟩ <;> rcases hbc with h2 | ⟨h2, h2n⟩
    · exact Or.inl (h1.trans h2)
    · exact Or.inl (h2 ▸ h1)
    · exact Or.inl (h1 ▸ h2)
    · exact Or.inr ⟨h1.trans h2, h1n.trans h2n⟩⟩

/-- The member partition of `buildContractDetails` appends, per kind, the
details of exactly the members of that kind, in scan order. -/
theorem partition_fold :
    ∀ (l : List MemberRow)
      (acc : List MemberDetails × List MemberDetails × List MemberDetails ×
        List MemberDetails),
      l.foldl partitionStep acc =
        (acc.1 ++ (l.filter fun m => m.type = "function").map toMemberDetails,
         acc.2.1 ++ (l.filter fun m => m.type = "event").map toMemberDetails,
         acc.2.2.1 ++ (l.filter fun m => m.type = "error").map toMemberDetails,
         acc.2.2.2 ++ (l.filter fun m => m.type = "modifier").map toMemberDetails) := by
  intro l
  induction l with
  | nil => intro acc; simp
  | cons m rest ih =>
    intro acc
    rw [List.foldl_cons, ih]
    rcases acc with ⟨a, b, c, d⟩
    by_cases h1 : m.type = "function"
    · simp [partitionStep, h1, List.filter_cons]
    · by_cases h2 : m.type = "event"
      · simp [partitionStep, h1, h2, List.filter_cons]
      · by_cases h3 : m.type = "error"
        · simp [partitionStep, h1, h2, h3, List.filter_cons]
        · by_cases h4 : m.type = "modifier"
          · simp [partitionStep, h1, h2, h3, h4, List.filter_cons]
          · simp [partitionStep, h1, h2, h3, h4, List.filter_cons]

/-- The four lists of `buildContractDetails` are the kind-filtered,
detail-mapped slices of the sorted member scan. -/
theorem buildContractDetails_lists (db : Database) (r : ContractRow) :
    (buildContractDetails db r).functions =
      ((sortedMembers db r).filter fun m => m.type = "function").map toMemberDetails ∧
    (buildContractDetails db r).events =
      ((sortedMembers db r).filter fun m => m.type = "event").map toMemberDetails ∧
    (buildContractDetails db r).errors =
      ((sortedMembers db r).filter fun m => m.type = "error").map toMemberDetails ∧
    (buildContractDetails db r).modifiers =
      ((sortedMembers db r).filter fun m => m.type = "modifier").map toMemberDetails := by
  simp only [buildContractDetails]
  rw [partition_fold]
  simp

/-- One kind slice of `buildContractDetails`: a permutation of the owned
members of that kind, internally ordered by name, containing only that
kind. -/
theorem kind_slice_spec (db : Database) (r : ContractRow) (kind : String)
    (l : List MemberDetails)
    (hl : l = ((sortedMembers db r).filter fun m => m.type = kind).map toMemberDetails) :
    l.Perm ((db.members.filter fun m =>
      m.contractId = r.id ∧ m.type = kind).map toMemberDetails) ∧
    List.Pairwise (fun a b : MemberDetails => a.name ≤ b.name) l ∧
    (∀ m ∈ l, m.type = kind) := by
  subst hl
  refine ⟨?_, ?_, ?_⟩
  · apply List.Perm.map
    have h1 : ((sortedMembers db r).filter fun m => m.type = kind).Perm
        ((db.members.filter fun m => m.contractId = r.id).filter
          fun m => m.type = kind) :=
      (List.perm_insertionSort memberLe _).filter _
    refine h1.trans ?_
    rw [List.filter_filter]
    have hpred : (fun m => decide (m.type = kind) && decide (m.contractId = r.id)) =
        (fun m : MemberRow => decide (m.contractId = r.id ∧ m.type = kind)) := by
      funext m
      rw [Bool.decide_and]
      exact Bool.and_comm _ _
    rw [hpred]
  · have hs : List.Pairwise memberLe ((sortedMembers db r).filter fun m => m.type = kind) :=
      (List.sorted_insertionSort memberLe _).sublist (List.filter_sublist _)
    refine List.pairwise_map.mpr (hs.imp_of_mem ?_)
    intro a b ha hb hab
    have hat : a.type = kind := by simpa using (List.mem_filter.mp ha).2
    have hbt : b.type = kind := by simpa using (List.mem_filter.mp hb).2
    rcases hab with hlt | ⟨_, hle⟩
    · rw [hat, hbt] at hlt
      exact absurd hlt (lt_irrefl kind)
    · exact hle
  · intro m hm
    obtain ⟨row, hrow, rfl⟩ := List.mem_map.mp hm
    have : row.type = kind := by simpa using (List.mem_filter.mp hrow).2
    simpa [toMemberDetails] using this

end Db

section Claims

/-- C1: the claim states that for a well-formed comment block the tag
parser produces notice and dev texts equal to the literal tag bodies (with
continuation lines joined by single spaces), and that only a line starting
with an *unrecognized* `@`-tag discards the active accumulator.  The code
violates the first half: when a recognized tag line (`@dev`, `@param`,
`@return`, `@inheritdoc`) follows an active `@notice` accumulator, the
accumulated notice is discarded rather than recorded — only a tag run that
is repeated or last in the block survives.  This theorem evaluates the full
extractor pipeline on the failing input: a block comment
`@notice Transfers tokens` / `@dev Internal note` immediately preceding a
declaration yields `notice = none` (the spec requires
`notice = "Transfers tokens"`), while the dev text, being last, does
survive. -/
theorem C1_notice_discarded_on_tag_change :
    Solidity.findNatSpecBefore 5
      (Solidity.extractNatSpecComments
        "/**\n * @notice Transfers tokens\n * @dev Internal note\n */\nfunction f() public") =
      some { notice := none, dev := some "Internal note", params := [],
             returns := [], inheritdoc := none } := by
  decide

/-- C2 counterexample: the claim states that free-text search ranks matches
by a TF-IDF–style score and attaches that numeric score to each hit.  On a
two-document corpus where any TF-IDF–style score separates the documents
(term frequencies 1 versus 5, scores 1 versus 5), `searchDocs` returns both
hits in storage order with the constant rank 0: the attached number is not
the TF-IDF–style score, and the order is not a ranking by it. -/
theorem C2_rank_not_tfidf_counterexample :
    Db.ftsParse (Db.toFtsQuery "transfer") = some [("transfer", true)] ∧
    (Db.searchDocs Samples.rankDb "transfer" "all" "all" 5).map
      (fun r => (r.id, r.rank)) = [(1, 0), (2, 0)] ∧
    Db.claimedTfIdfScore Samples.rankDb.docs [("transfer", true)] Samples.rankDoc1 = 1 ∧
    Db.claimedTfIdfScore Samples.rankDb.docs [("transfer", true)] Samples.rankDoc2 = 5 := by
  refine ⟨by decide, by decide, by decide, by decide⟩

/-- C2 as amended: every hit returned by `searchDocs` carries the constant
numeric rank 0 (the query selects the literal `0 as rank`), and the hits
appear in storage (rowid) order truncated to the limit — no
term-frequency/inverse-document-frequency ranking is applied. -/
theorem C2_rank_constant_zero_storage_order :
    ∀ (db : Db.Database) (q v c : String) (l : Nat) (snip : Db.DocRow → String),
      ((Db.searchDocs db q v c l snip).all fun r => r.rank == 0) = true ∧
      ((Db.searchDocs db q v c l snip).map (·.id)).Sublist (db.docs.map (·.id)) := by
  intro db q v c l snip
  unfold Db.searchDocs
  cases h : Db.ftsParse (Db.toFtsQuery q) with
  | none => exact ⟨rfl, List.nil_sublist _⟩
  | some phrases =>
    constructor
    · simp only [List.all_eq_true, beq_iff_eq]
      intro x hx
      obtain ⟨d, _, rfl⟩ := List.mem_map.mp hx
      rfl
    · rw [List.map_map]
      exact ((List.take_sublist _ _).trans (List.filter_sublist _)).map _

/-- C8: a malformed query never surfaces an error from `searchDocs`: the
embedded function is total with list codomain (the `catch` branch of the
source), and whenever the FTS engine rejects the generated `MATCH` string
as malformed, the result is the empty list. -/
theorem C8_malformed_query_yields_empty
    (db : Db.Database) (q v c : String) (l : Nat) (snip : Db.DocRow → String)
    (h : Db.ftsParse (Db.toFtsQuery q) = none) :
    Db.searchDocs db q v c l snip = [] := by
  unfold Db.searchDocs
  rw [h]

/-- Witness for C8 at a concrete store and a query containing a character
significant to the FTS syntax (a double quote). -/
theorem C8_malformed_query_yields_empty_witness :
    Db.ftsParse (Db.toFtsQuery "ab\"cd") = none ∧
    Db.searchDocs Samples.docDb "ab\"cd" "5.x" "all" 5 (fun _ => "") = [] :=
  ⟨by decide,
   C8_malformed_query_yields_empty Samples.docDb "ab\"cd" "5.x" "all" 5 (fun _ => "")
     (by decide)⟩

/-- C3 counterexample: the claim's three-key order finds the
underscore-index entry `_0` for a *named* return value when the name key is
absent, but the code never tries the underscore key for a named return: on
a comment whose `returns` map is `{_0 ↦ "D"}` and a return value named `a`,
the claimed lookup yields `"D"` while the walker records no description. -/
theorem C3_three_key_lookup_counterexample :
    Solidity.claimedReturnDescription Samples.fNs (some "a") 0 = some "D" ∧
    (Solidity.parseFunctionDefinition Samples.fNode (some Samples.fNs)).map
      (fun f => f.returns.map (·.description)) = some [none] := by
  refine ⟨by decide, by decide⟩

/-- C3 as amended: the description lookup tries exactly two keys — the
return's own name when it is non-empty, else the underscore-index key, with
the bare index key as the single fallback (also taken after an empty-string
hit, per JavaScript truthiness) — and the walker's return list applies this
lookup at each return position. -/
theorem C3_return_description_two_keys :
    (∀ (ns : Solidity.NatSpecComment) (name : Option String) (idx : Nat),
      Solidity.returnDescription (some ns) name idx =
        Solidity.amendedReturnDescription ns name idx) ∧
    (∀ (node : Solidity.FunctionNode) (ns : Solidity.NatSpecComment)
      (f : Solidity.FunctionInfo),
      Solidity.parseFunctionDefinition node (some ns) = some f →
      f.returns.map (·.description) =
        (List.range node.returnParameters.length).map fun i =>
          Solidity.amendedReturnDescription ns
            ((node.returnParameters.getD i {}).name) i) := by
  have key : ∀ (ns : Solidity.NatSpecComment) (name : Option String) (idx : Nat),
      Solidity.returnDescription (some ns) name idx =
        Solidity.amendedReturnDescription ns name idx := by
    intro ns name idx
    unfold Solidity.returnDescription Solidity.amendedReturnDescription
    simp only [Option.some_bind]
    rw [JsStr.orO_eq_match, JsStr.orS_eq_match]
    cases name <;> rfl
  refine ⟨key, ?_⟩
  intro node ns f hf
  unfold Solidity.parseFunctionDefinition at hf
  by_cases hname : JsStr.truthy (Solidity.functionNameOf node) = true
  · rw [if_neg (not_not_intro hname)] at hf
    simp only [Option.some.injEq] at hf
    subst hf
    rw [Solidity.map_mapWithIndex]
    rw [Solidity.mapWithIndex_eq_range_map _ ({} : Solidity.ASTParam)]
    apply List.map_congr_left
    intro i _
    simp only [Nat.zero_add]
    exact key ns ((node.returnParameters.getD i {}).name) i
  · rw [if_pos hname] at hf
    exact absurd hf (by simp)

/-- Witness for C3's amended theorem at the concrete node, comment and
walker output of the counterexample. -/
theorem C3_return_description_two_keys_witness :
    Samples.fInfo.returns.map (·.description) =
      (List.range Samples.fNode.returnParameters.length).map fun i =>
        Solidity.amendedReturnDescription Samples.fNs
          ((Samples.fNode.returnParameters.getD i {}).name) i :=
  C3_return_description_two_keys.2 Samples.fNode Samples.fNs Samples.fInfo (by decide)

/-- C4 counterexample: on the identifier `A.B.C` the claim's
first-occurrence split gives contract `A` and member `B.C`, so the claimed
lookup finds the function named `B.C` of contract `A`; the code instead
takes `parts[1]`, searching for a function named `B`, and finds nothing. -/
theorem C4_split_first_counterexample :
    Db.getFunction Samples.dottedDb "A.B.C" none "5.x" = [] ∧
    (Db.claimedGetFunction Samples.dottedDb "A.B.C" "5.x").map (·.name) = ["B.C"] := by
  refine ⟨by decide, by decide⟩

/-- C4 as amended: qualified member lookup equals the amended description —
split on every separator, contract := first segment, member := second
segment (later segments dropped), with an empty contract segment degrading
to unqualified member matching. -/
theorem C4_qualified_lookup_amended :
    ∀ (db : Db.Database) (identifier version : String),
      Db.getFunction db identifier none version =
        Db.amendedGetFunction db identifier version := by
  intro db identifier version
  unfold Db.getFunction Db.amendedGetFunction
  cases h : JsStr.splitOn identifier "." with
  | nil => exact absurd h (JsStr.splitOn_ne_nil identifier ".")
  | cons contract restPieces =>
    cases restPieces with
    | nil =>
      have hinc : JsStr.includes identifier "." = false := by
        simp [JsStr.includes, h]
      simp [hinc, JsStr.truthyO]
    | cons member tail =>
      have hinc : JsStr.includes identifier "." = true := by
        simp [JsStr.includes, h]
      simp only [hinc, h, and_true, if_pos trivial]
      by_cases hc : contract = ""
      · simp [hc, JsStr.truthyO, JsStr.truthy]
      · simp [hc, JsStr.truthyO, JsStr.truthy]

/-- C6 counterexample: on the path `pages/erc_20.mdx` the claim's rule
(case-insensitive `erc` prefix, separators removed) yields `ERC20`, but the
code removes only hyphens after upper-casing, yielding `ERC_20`; the
prefix test in the code is also case-sensitive (`Erc-20.mdx` falls through
to the capitalize branch). -/
theorem C6_module_name_counterexample :
    Mdx.detectModule "pages/erc_20.mdx" = "ERC_20" ∧
    Mdx.claimedDetectModule "pages/erc_20.mdx" = "ERC20" ∧
    Mdx.detectModule "pages/Erc-20.mdx" = "Erc20" ∧
    Mdx.claimedDetectModule "pages/Erc-20.mdx" = "ERC20" := by
  refine ⟨by decide, by decide, by decide, by decide⟩

/-- C6 as amended: for every slash-free, non-empty filename, the module of
`dir/name.mdx` is the module rule applied to `name`: a filename starting
**case-sensitively** with `erc` is upper-cased with **hyphens only**
removed (underscores are kept); any other filename is split on
hyphen/underscore, each part capitalized, and concatenated. -/
theorem C6_detect_module_amended (dir name : String) (h1 : name.data ≠ [])
    (h2 : ∀ c ∈ name.data, c ≠ '/') :
    Mdx.detectModule (dir ++ "/" ++ name ++ ".mdx") = Mdx.moduleOfBasename name := by
  have hseg := Mdx.lastSegment_concat dir name ".mdx" h2 (by decide)
  unfold Mdx.detectModule Mdx.extnameOf
  rw [hseg]
  rw [show (name ++ ".mdx").data = name.data ++ ".mdx".data from String.data_append _ _]
  rw [Mdx.extnameCore_concat name.data h1]
  rw [Mdx.basenameExt_strip _ name hseg h1]

/-- Witness for C6's amended theorem on a concrete guide filename. -/
theorem C6_detect_module_amended_witness :
    Mdx.detectModule ("pages" ++ "/" ++ "access-control" ++ ".mdx") =
      Mdx.moduleOfBasename "access-control" :=
  C6_detect_module_amended "pages" "access-control" (by decide) (by decide)

/-- C5 counterexample: the document [paragraph `intro`; level-2 heading
containing only inline code] has a boundary heading, yet every extracted
section stays blank (the heading has no plain-text child and nothing
follows), so the whole-document fallback fires and captures the
pre-boundary paragraph `intro` into a chunk — the claim says content before
the first boundary heading is never captured.  (The claim's first half also
fails on the empty document, which yields zero chunks instead of one.) -/
theorem C5_preboundary_captured_counterexample :
    (∃ n ∈ Mdx.visitForest [Mdx.MdNode.paragraph [Mdx.MdNode.text "intro"],
        Mdx.MdNode.heading 2 [Mdx.MdNode.inlineCode "api"]],
      Mdx.isBoundary n = true) ∧
    (Mdx.chunksOf "docs/guide.mdx" []
        [Mdx.MdNode.paragraph [Mdx.MdNode.text "intro"],
         Mdx.MdNode.heading 2 [Mdx.MdNode.inlineCode "api"]]).map (·.content) =
      ["intro"] := by
  refine ⟨by decide, by decide⟩

/-- C5 as amended: (1) for a document with no boundary heading anywhere in
its node tree, the Chunker emits exactly the single whole-document chunk
(titled by the front-matter title if truthy, else the derived module name,
body all extracted text in document order) when that text is non-blank, and
no chunk at all when it is blank; (2) the section scan is a function of the
preorder node sequence from the first boundary heading on, so whenever at
least one section is extracted, content before the first boundary heading
cannot reach any chunk; when every section stays blank the fallback of (1)
applies instead. -/
theorem C5_chunker_amended :
    ∀ (filePath : String) (fm : List (String × String)) (tree : List Mdx.MdNode),
      ((∀ n ∈ Mdx.visitForest tree, Mdx.isBoundary n = false) →
        Mdx.chunksOf filePath fm tree =
          (if JsStr.truthy (JsStr.trim (Mdx.extractAllText tree)) then
            [Mdx.wholeDocChunk filePath fm tree]
          else [])) ∧
      Mdx.sectionsGo (Mdx.visitForest tree) none [] =
        Mdx.sectionsGo ((Mdx.visitForest tree).dropWhile fun n => ! Mdx.isBoundary n)
          none [] := by
  intro filePath fm tree
  refine ⟨?_, Mdx.sectionsGo_dropWhile (Mdx.visitForest tree)⟩
  intro h
  have hdrop : (Mdx.visitForest tree).dropWhile (fun n => ! Mdx.isBoundary n) = [] := by
    rw [List.dropWhile_eq_nil_iff]
    intro x hx
    simp [h x hx]
  have hs : Mdx.extractSections tree = [] := by
    unfold Mdx.extractSections
    rw [Mdx.sectionsGo_dropWhile, hdrop]
    rfl
  unfold Mdx.chunksOf Mdx.wholeDocChunk
  rw [hs]
  rfl

/-- Witness for C5's amended theorem on a one-paragraph document with no
boundary heading. -/
theorem C5_chunker_amended_witness :
    Mdx.chunksOf "docs/guide.mdx" [] [Mdx.MdNode.paragraph [Mdx.MdNode.text "hi"]] =
      (if JsStr.truthy (JsStr.trim (Mdx.extractAllText
          [Mdx.MdNode.paragraph [Mdx.MdNode.text "hi"]])) then
        [Mdx.wholeDocChunk "docs/guide.mdx" []
          [Mdx.MdNode.paragraph [Mdx.MdNode.text "hi"]]]
      else []) :=
  (C5_chunker_amended "docs/guide.mdx" []
    [Mdx.MdNode.paragraph [Mdx.MdNode.text "hi"]]).1 (by decide)

/-- C9 counterexample: a well-formed `///` notice comment followed by two
blank lines and a declaration on 1-indexed line 4 is not attached: the code
keys a `///` comment at the line after it (here line 2) without scanning
forward, so the exposed lookup `map[4] else map[3]` misses it, although the
comment parses to a notice block (first conjunct). -/
theorem C9_blank_lines_counterexample :
    Solidity.parseNatSpecContent "@notice Hi" =
      some { notice := some "Hi" } ∧
    Solidity.findNatSpecBefore 4
      (Solidity.extractNatSpecComments "/// @notice Hi\n\n\nfunction f() public") =
      none := by
  refine ⟨by decide, by decide⟩

/-- C9 as amended: block-style `/** */` comments tolerate any number of
intervening blank lines — the parsed block is keyed at the next non-blank
line, so the exposed lookup hits `map[L]` directly (first conjunct, for
every blank count `k`); single-line `///` comments are keyed at the line
immediately following the comment, so the lookup `map[L] else map[L-1]`
attaches them only when at most one blank line intervenes (second and third
conjuncts); with two or more blank lines the attachment fails, as the
counterexample shows. -/
theorem C9_comment_attachment_amended (k : Nat) (decl : String)
    (rest : List String)
    (hd : JsStr.truthy (JsStr.trim decl) = true)
    (h3 : JsStr.startsWith (JsStr.trim decl) "///" = false) :
    Solidity.findNatSpecBefore (k + 4)
      ((Solidity.extractGo ("/**" :: " * @notice Transfers tokens" :: " */" ::
          (List.replicate k "" ++ decl :: rest)) 0 {}).map) =
      some { notice := some "Transfers tokens" } ∧
    Solidity.findNatSpecBefore 2
      ((Solidity.extractGo ("/// @notice Hi" :: decl :: rest) 0 {}).map) =
      some { notice := some "Hi" } ∧
    Solidity.findNatSpecBefore 3
      ((Solidity.extractGo ("/// @notice Hi" :: "" :: decl :: rest) 0 {}).map) =
      some { notice := some "Hi" } := by
  refine ⟨?_, ?_, ?_⟩
  · rw [Solidity.extractGo_block_prefix]
    rw [Solidity.firstNonBlankIdx_blanks decl rest hd k 3]
    rw [Solidity.extractGo_blanks _ rfl k 3 (decl :: rest)]
    show Solidity.findNatSpecBefore (k + 4)
      (Solidity.extractGo rest (3 + k + 1) (Solidity.extractStep _ decl (3 + k) rest)).map = _
    unfold Solidity.findNatSpecBefore
    rw [Solidity.extractGo_preserve rest (3 + k + 1) _ (k + 4) (by omega)]
    rw [Solidity.extractStep_map_const _ decl (3 + k) rest rfl h3]
    simp [Solidity.aGetN, show 3 + k + 1 = k + 4 from by omega]
  · rw [Solidity.extractGo_line_prefix]
    show Solidity.findNatSpecBefore 2
      (Solidity.extractGo rest 2 (Solidity.extractStep _ decl 1 rest)).map = _
    unfold Solidity.findNatSpecBefore
    rw [Solidity.extractGo_preserve rest 2 _ 2 (by omega)]
    rw [Solidity.extractStep_map_const _ decl 1 rest rfl h3]
    rfl
  · rw [Solidity.extractGo_line_prefix]
    show Solidity.findNatSpecBefore 3
      (Solidity.extractGo (decl :: rest) 2
        (Solidity.extractStep
          { inBlockComment := false,
            currentComment := [],
            commentEndLine := 1,
            map := [(2, { notice := some "Hi" })] } "" 1
          (decl :: rest))).map = _
    rw [Solidity.extractStep_blank _ 1 (decl :: rest) rfl]
    show Solidity.findNatSpecBefore 3
      (Solidity.extractGo rest 3 (Solidity.extractStep _ decl 2 rest)).map = _
    unfold Solidity.findNatSpecBefore
    rw [Solidity.extractGo_preserve rest 3 _ 3 (by omega)]
    rw [Solidity.extractGo_preserve rest 3 _ 2 (by omega)]
    rw [Solidity.extractStep_map_const _ decl 2 rest rfl h3]
    rfl

/-- Witness for C9's amended theorem at two blank lines before a concrete
declaration line. -/
theorem C9_comment_attachment_amended_witness :
    Solidity.findNatSpecBefore (2 + 4)
      ((Solidity.extractGo ("/**" :: " * @notice Transfers tokens" :: " */" ::
          (List.replicate 2 "" ++ "function f() public" :: [])) 0 {}).map) =
      some { notice := some "Transfers tokens" } ∧
    Solidity.findNatSpecBefore 2
      ((Solidity.extractGo ("/// @notice Hi" :: "function f() public" :: []) 0 {}).map) =
      some { notice := some "Hi" } ∧
    Solidity.findNatSpecBefore 3
      ((Solidity.extractGo ("/// @notice Hi" :: "" :: "function f() public" :: [])
        0 {}).map) =
      some { notice := some "Hi" } :=
  C9_comment_attachment_amended 2 "function f() public" [] (by decide) (by decide)

/-- C7: exact entity lookup tries a case-sensitive `(name, version)` match
first and only then a case-insensitive one: when an exact row exists the
result is built from an exact row; when none does but a case-insensitive
row exists, the result is built from such a row; the result is `none`
exactly when no row matches even case-insensitively (a normal empty
outcome, not an error — the embedded function is total into `Option`).  On
success the details group every owned member by kind into the four lists
(functions, events, errors, modifiers), each a permutation of the owned
members of that kind, internally ordered by name (the `(kind, name)` order
restricted to one kind), and containing only members of its kind. -/
theorem C7_get_contract_spec (db : Db.Database) (name version : String) :
    (Db.getContract db name version = none ↔
      ∀ r ∈ db.contracts,
        ¬ (JsStr.lower r.name = JsStr.lower name ∧ r.version = version)) ∧
    ((∃ r ∈ db.contracts, r.name = name ∧ r.version = version) →
      ∃ r ∈ db.contracts, r.name = name ∧ r.version = version ∧
        Db.getContract db name version = some (Db.buildContractDetails db r)) ∧
    ((¬ ∃ r ∈ db.contracts, r.name = name ∧ r.version = version) →
      ∀ d, Db.getContract db name version = some d →
        ∃ r ∈ db.contracts, JsStr.lower r.name = JsStr.lower name ∧
          r.version = version ∧ d = Db.buildContractDetails db r) ∧
    (∀ r : Db.ContractRow,
      ((Db.buildContractDetails db r).functions.Perm
        ((db.members.filter fun m => m.contractId = r.id ∧ m.type = "function").map
          Db.toMemberDetails) ∧
       List.Pairwise (fun a b : Db.MemberDetails => a.name ≤ b.name)
         (Db.buildContractDetails db r).functions ∧
       (∀ m ∈ (Db.buildContractDetails db r).functions, m.type = "function")) ∧
      ((Db.buildContractDetails db r).events.Perm
        ((db.members.filter fun m => m.contractId = r.id ∧ m.type = "event").map
          Db.toMemberDetails) ∧
       List.Pairwise (fun a b : Db.MemberDetails => a.name ≤ b.name)
         (Db.buildContractDetails db r).events ∧
       (∀ m ∈ (Db.buildContractDetails db r).events, m.type = "event")) ∧
      ((Db.buildContractDetails db r).errors.Perm
        ((db.members.filter fun m => m.contractId = r.id ∧ m.type = "error").map
          Db.toMemberDetails) ∧
       List.Pairwise (fun a b : Db.MemberDetails => a.name ≤ b.name)
         (Db.buildContractDetails db r).errors ∧
       (∀ m ∈ (Db.buildContractDetails db r).errors, m.type = "error")) ∧
      ((Db.buildContractDetails db r).modifiers.Perm
        ((db.members.filter fun m => m.contractId = r.id ∧ m.type = "modifier").map
          Db.toMemberDetails) ∧
       List.Pairwise (fun a b : Db.MemberDetails => a.name ≤ b.name)
         (Db.buildContractDetails db r).modifiers ∧
       (∀ m ∈ (Db.buildContractDetails db r).modifiers, m.type = "modifier"))) := by
  refine ⟨⟨?_, ?_⟩, ?_, ?_, ?_⟩
  · intro h r hr hci
    unfold Db.getContract at h
    cases hex : db.contracts.find? (fun r => r.name = name ∧ r.version = version) with
    | some c => rw [hex] at h; exact Option.noConfusion h
    | none =>
      rw [hex] at h
      cases hci2 : db.contracts.find?
          (fun r => JsStr.lower r.name = JsStr.lower name ∧ r.version = version) with
      | some c => rw [hci2] at h; exact Option.noConfusion h
      | none =>
        have hx := List.find?_eq_none.mp hci2 r hr
        simp only [decide_eq_true_eq] at hx
        exact hx hci
  · intro hall
    unfold Db.getContract
    have hex : db.contracts.find? (fun r => r.name = name ∧ r.version = version) = none := by
      rw [List.find?_eq_none]
      intro r hr
      simp only [decide_eq_true_eq]
      intro hx
      exact hall r hr ⟨by rw [hx.1], hx.2⟩
    have hci : db.contracts.find?
        (fun r => JsStr.lower r.name = JsStr.lower name ∧ r.version = version) = none := by
      rw [List.find?_eq_none]
      intro r hr
      simp only [decide_eq_true_eq]
      exact hall r hr
    rw [hex, hci]
  · rintro ⟨r0, hr0, hx0⟩
    unfold Db.getContract
    cases hex : db.contracts.find? (fun r => r.name = name ∧ r.version = version) with
    | none =>
      have hx := List.find?_eq_none.mp hex r0 hr0
      simp only [decide_eq_true_eq] at hx
      exact absurd hx0 hx
    | some c =>
      have hc := List.find?_some hex
      simp only [decide_eq_true_eq] at hc
      exact ⟨c, List.mem_of_find?_eq_some hex, hc.1, hc.2, rfl⟩
  · intro hno d hd
    unfold Db.getContract at hd
    cases hex : db.contracts.find? (fun r => r.name = name ∧ r.version = version) with
    | some c =>
      have hc := List.find?_some hex
      simp only [decide_eq_true_eq] at hc
      exact absurd ⟨c, List.mem_of_find?_eq_some hex, hc⟩ hno
    | none =>
      rw [hex] at hd
      cases hci : db.contracts.find?
          (fun r => JsStr.lower r.name = JsStr.lower name ∧ r.version = version) with
      | none => rw [hci] at hd; exact Option.noConfusion hd
      | some c =>
        rw [hci] at hd
        have hc := List.find?_some hci
        simp only [decide_eq_true_eq] at hc
        refine ⟨c, List.mem_of_find?_eq_some hci, hc.1, hc.2, ?_⟩
        injection hd with hd
        exact hd.symm
  · intro r
    obtain ⟨hf, he, her, hm⟩ := Db.buildContractDetails_lists db r
    exact ⟨Db.kind_slice_spec db r "function" _ hf,
      Db.kind_slice_spec db r "event" _ he,
      Db.kind_slice_spec db r "error" _ her,
      Db.kind_slice_spec db r "modifier" _ hm⟩

/-- Witness for C7 on a concrete store: the `ERC20` row is found with exact
case, and an unknown name yields the normal `none` outcome. -/
theorem C7_get_contract_spec_witness :
    Db.getContract Samples.erc20Db "Nope" "5.x" = none ∧
    (∃ r ∈ Samples.erc20Db.contracts, r.name = "ERC20" ∧ r.version = "5.x" ∧
      Db.getContract Samples.erc20Db "ERC20" "5.x" =
        some (Db.buildContractDetails Samples.erc20Db r)) :=
  ⟨(C7_get_contract_spec Samples.erc20Db "Nope" "5.x").1.mpr (by decide),
   (C7_get_contract_spec Samples.erc20Db "ERC20" "5.x").2.1 (by decide)⟩

/-- C10: whatever the external parser yields, every contract a build
produces comes from a file whose path contains neither `/mocks/` nor
`/test/` (those files are skipped before parsing), and consequently no
produced contract ever carries the category `mocks`, even though `mocks`
sits in the category table. -/
theorem C10_no_mocks_contracts
    (parse : String → List Solidity.ContractNode) (files : List (String × String))
    (version : String) (c : Solidity.ContractInfo)
    (hc : c ∈ Solidity.parseSolidityFiles parse files version) :
    (∃ f ∈ files, JsStr.includes f.1 "/mocks/" = false ∧
      JsStr.includes f.1 "/test/" = false ∧
      c ∈ Solidity.parseSolidityFile parse f.1 version f.2) ∧
    c.category ≠ "mocks" := by
  unfold Solidity.parseSolidityFiles at hc
  rcases Solidity.parseSolidityFiles_mem_of_mem parse version files [] c hc with
    h | ⟨f, hf, hm, ht, hmem⟩
  · exact absurd h (List.not_mem_nil c)
  · refine ⟨⟨f, hf, hm, ht, hmem⟩, ?_⟩
    unfold Solidity.parseSolidityFile at hmem
    obtain ⟨node, _, rfl⟩ := List.mem_map.mp hmem
    rw [Solidity.parseContractDefinition_category]
    exact Solidity.detectCategory_ne_mocks f.1 hm

end Claims

namespace Samples

/-- A constant external parser yielding one bare contract node. -/
def parseOracle : String → List Solidity.ContractNode :=
  fun _ => [{ name := "X", kind := "contract" }]

/-- One keeper file under the token tree. -/
def solFiles : List (String × String) := [("a/contracts/token/X.sol", "contract X {}")]

/-- The contract the build produces from `solFiles` under `parseOracle`. -/
def xInfo : Solidity.ContractInfo :=
  { name := "X", type := "contract", category := "token", version := "5.x",
    inheritance := [], natspecNotice := none, sourceUrl := "" }

end Samples

section ClaimsW

/-- Witness for C10 at a concrete parser, file list and produced
contract. -/
theorem C10_no_mocks_contracts_witness :
    (∃ f ∈ Samples.solFiles, JsStr.includes f.1 "/mocks/" = false ∧
      JsStr.includes f.1 "/test/" = false ∧
      Samples.xInfo ∈ Solidity.parseSolidityFile Samples.parseOracle f.1 "5.x" f.2) ∧
    Samples.xInfo.category ≠ "mocks" :=
  C10_no_mocks_contracts Samples.parseOracle Samples.solFiles "5.x" Samples.xInfo
    (by decide)

end ClaimsW
